import Mathlib

/-!
Verification of the image-embedding pipeline of the DonGlendenningArchive
repository (`scripts/add_images.py`).

Page contents, HTML fragments and filenames are modelled as `List Char`
(Python `str` values, indexed by code points exactly as Python string
indices are).  Python's `str.find`, `str.rfind`, the `in` operator and
`sorted` are modelled by executable functions below, together with
correctness lemmas.  Filesystem effects are modelled as explicit event
traces.
-/

namespace AddImages

/-- Python string comparison `s <= t` (lexicographic on code points). -/
def strLeB : List Char → List Char → Bool
  | [], _ => true
  | _ :: _, [] => false
  | a :: s, b :: t =>
    if a.toNat < b.toNat then true
    else if b.toNat < a.toNat then false
    else strLeB s t

/-- Propositional form of `strLeB`, used as the sort relation. -/
def StrLe (s t : List Char) : Prop := strLeB s t = true

instance : DecidableRel StrLe := fun s t => instDecidableEqBool (strLeB s t) true

theorem char_eq_of_toNat_eq {a b : Char} (h : a.toNat = b.toNat) : a = b := by
  apply Char.ext
  apply UInt32.ext
  exact h

theorem strLeB_total : ∀ s t, strLeB s t = true ∨ strLeB t s = true
  | [], _ => Or.inl rfl
  | _ :: _, [] => Or.inr rfl
  | a :: s, b :: t => by
    simp only [strLeB]
    rcases Nat.lt_trichotomy a.toNat b.toNat with h | h | h
    · left; simp [h]
    · have := strLeB_total s t
      rcases this with h2 | h2
      · left; simp [h, h2]
      · right; simp [h.symm, h2]
    · right; simp [h]

theorem strLeB_trans : ∀ s t u, strLeB s t = true → strLeB t u = true → strLeB s u = true
  | [], _, _, _, _ => rfl
  | _ :: _, [], _, h, _ => by simp [strLeB] at h
  | _ :: _, _ :: _, [], _, h => by simp [strLeB] at h
  | a :: s, b :: t, c :: u, h1, h2 => by
    simp only [strLeB] at h1 h2 ⊢
    split_ifs at h1 h2 ⊢ with g1 g2 g3 g4 g5 g6 <;> try rfl
    all_goals try omega
    all_goals try simp_all
    · exact strLeB_trans s t u h1 h2

theorem strLeB_antisymm : ∀ s t, strLeB s t = true → strLeB t s = true → s = t
  | [], [], _, _ => rfl
  | [], _ :: _, _, h => by simp [strLeB] at h
  | _ :: _, [], h, _ => by simp [strLeB] at h
  | a :: s, b :: t, h1, h2 => by
    simp only [strLeB] at h1 h2
    split_ifs at h1 h2 with g1 g2 g3 <;> try omega
    all_goals try simp_all
    have hab : a = b := char_eq_of_toNat_eq (by omega)
    have : s = t := strLeB_antisymm s t h1 h2
    simp [hab, this]

instance : IsTrans (List Char) StrLe := ⟨fun s t u => strLeB_trans s t u⟩

instance : IsTotal (List Char) StrLe := ⟨fun s t => strLeB_total s t⟩

instance : IsAntisymm (List Char) StrLe := ⟨fun s t => strLeB_antisymm s t⟩

/-- Python `sorted` on a list of strings: the unique permutation sorted by
the code-point lexicographic order. -/
def pySorted (l : List (List Char)) : List (List Char) := List.insertionSort StrLe l

/-- Python `s.find(sub)` restricted to the suffix it scans: index of the
first occurrence of `sub` in `s`, if any. -/
def findSub : List Char → List Char → Option Nat
  | [], sub => if sub.isPrefixOf ([] : List Char) then some 0 else none
  | c :: t, sub =>
    if sub.isPrefixOf (c :: t) then some 0
    else (findSub t sub).map (· + 1)

/-- Python `s.rfind(sub)`: index of the last occurrence of `sub` in `s`. -/
def rfindSub : List Char → List Char → Option Nat
  | [], sub => if sub.isPrefixOf ([] : List Char) then some 0 else none
  | c :: t, sub =>
    match rfindSub t sub with
    | some j => some (j + 1)
    | none => if sub.isPrefixOf (c :: t) then some 0 else none

/-- Python `s.find(sub, start)`. -/
def findFrom (s sub : List Char) (start : Nat) : Option Nat :=
  (findSub (s.drop start) sub).map (· + start)

/-- Python `s.rfind(sub, lo, hi)`: last occurrence contained in `[lo, hi)`. -/
def rfindIn (s sub : List Char) (lo hi : Nat) : Option Nat :=
  (rfindSub ((s.drop lo).take (hi - lo)) sub).map (· + lo)

/-- Python `sub in s`. -/
def containsSub (s sub : List Char) : Bool := (findSub s sub).isSome

/-- An occurrence of `sub` at index `j` of `s`. -/
def OccAt (s sub : List Char) (j : Nat) : Prop := sub.isPrefixOf (s.drop j) = true

theorem findSub_occ : ∀ s sub j, findSub s sub = some j → OccAt s sub j
  | [], sub, j => by
    rw [findSub]
    split_ifs with h
    · intro hj
      simp only [Option.some.injEq] at hj
      subst hj
      simpa [OccAt] using h
    · intro hj; simp at hj
  | c :: t, sub, j => by
    rw [findSub]
    split_ifs with h
    · intro hj
      simp only [Option.some.injEq] at hj
      subst hj
      simpa [OccAt] using h
    · intro hj
      simp only [Option.map_eq_some'] at hj
      obtain ⟨k, hk, rfl⟩ := hj
      have := findSub_occ t sub k hk
      simpa [OccAt] using this

theorem findSub_least : ∀ s sub j, findSub s sub = some j → ∀ k, k < j → ¬ OccAt s sub k
  | [], sub, j => by
    rw [findSub]
    split_ifs with h
    · intro hj
      simp only [Option.some.injEq] at hj
      omega
    · intro hj; simp at hj
  | c :: t, sub, j => by
    rw [findSub]
    split_ifs with h
    · intro hj
      simp only [Option.some.injEq] at hj
      omega
    · intro hj k hk
      simp only [Option.map_eq_some'] at hj
      obtain ⟨m, hm, rfl⟩ := hj
      match k with
      | 0 => simpa [OccAt] using h
      | k + 1 =>
        have := findSub_least t sub m hm k (by omega)
        simpa [OccAt] using this

theorem findSub_isSome_of_occ : ∀ s sub j, OccAt s sub j → (findSub s sub).isSome = true
  | [], sub, j => by
    intro hocc
    rw [findSub]
    split_ifs with h
    · rfl
    · match j with
      | 0 => exact absurd hocc h
      | j + 1 => simp only [OccAt, List.drop_nil] at hocc h; simp_all
  | c :: t, sub, j => by
    intro hocc
    rw [findSub]
    split_ifs with h
    · rfl
    · match j with
      | 0 => exact absurd hocc h
      | j + 1 =>
        have := findSub_isSome_of_occ t sub j (by simpa [OccAt] using hocc)
        simpa using this

theorem occ_length_le {s sub : List Char} {j : Nat} (h : OccAt s sub j) :
    j + sub.length ≤ s.length ∨ sub = [] := by
  simp only [OccAt, List.isPrefixOf_iff_prefix] at h
  have hlen := h.length_le
  simp only [List.length_drop] at hlen
  by_cases hj : j ≤ s.length
  · left; omega
  · right
    have : s.drop j = [] := List.drop_eq_nil_of_le (by omega)
    rw [this] at h
    exact List.prefix_nil.mp h

theorem rfindSub_occ : ∀ s sub j, rfindSub s sub = some j → OccAt s sub j
  | [], sub, j => by
    rw [rfindSub]
    split_ifs with h
    · intro hj
      simp only [Option.some.injEq] at hj
      subst hj
      simpa [OccAt] using h
    · intro hj; simp at hj
  | c :: t, sub, j => by
    rw [rfindSub]
    match hrec : rfindSub t sub with
    | some m =>
      intro hj
      simp only [Option.some.injEq] at hj
      subst hj
      have := rfindSub_occ t sub m hrec
      simpa [OccAt] using this
    | none =>
      split_ifs with h
      · intro hj
        simp only [Option.some.injEq] at hj
        subst hj
        simpa [OccAt] using h
      · intro hj; simp at hj

theorem rfindSub_isSome_of_occ : ∀ s sub j, OccAt s sub j → (rfindSub s sub).isSome = true
  | [], sub, j => by
    intro hocc
    rw [rfindSub]
    split_ifs with h
    · rfl
    · match j with
      | 0 => exact absurd hocc h
      | j + 1 => simp only [OccAt, List.drop_nil] at hocc h; simp_all
  | c :: t, sub, j => by
    intro hocc
    rw [rfindSub]
    match hrec : rfindSub t sub with
    | some m => rfl
    | none =>
      split_ifs with h
      · rfl
      · match j with
        | 0 => exact absurd hocc h
        | j + 1 =>
          have := rfindSub_isSome_of_occ t sub j (by simpa [OccAt] using hocc)
          rw [hrec] at this
          simp at this

theorem rfindSub_greatest : ∀ s sub j, sub ≠ [] → rfindSub s sub = some j →
    ∀ k, j < k → ¬ OccAt s sub k
  | [], sub, j, hsub => by
    rw [rfindSub]
    split_ifs with h
    · intro hj k hk
      simp only [Option.some.injEq] at hj
      subst hj
      match k, hk with
      | k + 1, _ =>
        intro hocc
        simp only [OccAt, List.drop_nil] at h hocc
        simp_all
    · intro hj; simp at hj
  | c :: t, sub, j, hsub => by
    rw [rfindSub]
    match hrec : rfindSub t sub with
    | some m =>
      intro hj k hk
      simp only [Option.some.injEq] at hj
      subst hj
      match k, hk with
      | k + 1, hk =>
        have := rfindSub_greatest t sub m hsub hrec k (by omega)
        simpa [OccAt] using this
    | none =>
      split_ifs with h
      · intro hj k hk
        simp only [Option.some.injEq] at hj
        subst hj
        match k, hk with
        | k + 1, _ =>
          intro hocc
          have : (findSub t sub).isSome = true :=
            findSub_isSome_of_occ t sub k (by simpa [OccAt] using hocc)
          rw [Option.isSome_iff_exists] at this
          obtain ⟨m, hm⟩ := this
          have hocc2 := findSub_occ t sub m hm
          have : (rfindSub t sub).isSome = true := rfindSub_isSome_of_occ t sub m hocc2
          rw [hrec] at this
          simp at this
      · intro hj; simp at hj

theorem containsSub_of_occ {s sub : List Char} {j : Nat} (h : OccAt s sub j) :
    containsSub s sub = true :=
  findSub_isSome_of_occ s sub j h

theorem containsSub_of_infix {s sub : List Char} (h : sub <:+: s) :
    containsSub s sub = true := by
  obtain ⟨p, t, rfl⟩ := h
  apply containsSub_of_occ (j := p.length)
  simp only [OccAt, List.isPrefixOf_iff_prefix]
  rw [List.append_assoc, List.drop_left]
  exact List.prefix_append sub t

/-- Occurrences survive dropping a prefix of the haystack. -/
theorem occ_of_occ_drop {s sub : List Char} {d j : Nat} (h : OccAt (s.drop d) sub j) :
    OccAt s sub (d + j) := by
  simp only [OccAt, List.isPrefixOf_iff_prefix] at h ⊢
  rw [List.drop_drop] at h
  exact h

/-- Occurrences inside a `take` are occurrences of the whole list. -/
theorem occ_of_occ_take {s sub : List Char} {n j : Nat} (h : OccAt (s.take n) sub j) :
    OccAt s sub j := by
  simp only [OccAt, List.isPrefixOf_iff_prefix] at h ⊢
  rw [List.drop_take] at h
  exact h.trans (List.take_prefix _ _)

theorem findFrom_occ {s sub : List Char} {start j : Nat} (h : findFrom s sub start = some j) :
    OccAt s sub j ∧ start ≤ j := by
  simp only [findFrom, Option.map_eq_some'] at h
  obtain ⟨k, hk, rfl⟩ := h
  refine ⟨?_, by omega⟩
  rw [Nat.add_comm]
  exact occ_of_occ_drop (findSub_occ _ _ _ hk)

theorem findFrom_least {s sub : List Char} {start j : Nat} (h : findFrom s sub start = some j) :
    ∀ k, start ≤ k → k < j → ¬ OccAt s sub k := by
  simp only [findFrom, Option.map_eq_some'] at h
  obtain ⟨m, hm, rfl⟩ := h
  intro k hk1 hk2 hocc
  apply findSub_least _ _ _ hm (k - start) (by omega)
  simp only [OccAt, List.isPrefixOf_iff_prefix] at hocc ⊢
  have h2 : List.drop (k - start) (List.drop start s) = List.drop k s := by
    rw [List.drop_drop]
    congr 1
    omega
  rw [h2]
  exact hocc

theorem findFrom_isSome_of_occ {s sub : List Char} {start j : Nat}
    (hocc : OccAt s sub j) (hj : start ≤ j) : (findFrom s sub start).isSome = true := by
  have hsome : (findSub (s.drop start) sub).isSome = true := by
    apply findSub_isSome_of_occ _ _ (j - start)
    simp only [OccAt, List.isPrefixOf_iff_prefix] at hocc ⊢
    have h2 : List.drop (j - start) (List.drop start s) = List.drop j s := by
      rw [List.drop_drop]
      congr 1
      omega
    rw [h2]
    exact hocc
  obtain ⟨m, hm⟩ := Option.isSome_iff_exists.mp hsome
  simp [findFrom, hm]

theorem rfindIn_occ {s sub : List Char} {lo hi j : Nat} (hsub : sub ≠ [])
    (h : rfindIn s sub lo hi = some j) :
    OccAt s sub j ∧ lo ≤ j ∧ j + sub.length ≤ hi ∧ j + sub.length ≤ s.length := by
  simp only [rfindIn, Option.map_eq_some'] at h
  obtain ⟨m, hm, rfl⟩ := h
  have hocc := rfindSub_occ _ _ _ hm
  have hpos : 0 < sub.length := List.length_pos.mpr hsub
  have hlen := occ_length_le hocc
  rcases hlen with hlen | hlen
  · simp only [List.length_take, List.length_drop] at hlen
    have h1 : m + sub.length ≤ hi - lo := hlen.trans (Nat.min_le_left _ _)
    have h2 : m + sub.length ≤ s.length - lo := hlen.trans (Nat.min_le_right _ _)
    have hocc2 : OccAt s sub (lo + m) := occ_of_occ_drop (occ_of_occ_take hocc)
    rw [Nat.add_comm] at hocc2
    exact ⟨hocc2, by omega, by omega, by omega⟩
  · exact absurd hlen hsub

theorem rfindIn_greatest {s sub : List Char} {lo hi j : Nat} (hsub : sub ≠ [])
    (h : rfindIn s sub lo hi = some j) :
    ∀ k, j < k → k + sub.length ≤ hi → ¬ OccAt s sub k := by
  simp only [rfindIn, Option.map_eq_some'] at h
  obtain ⟨m, hm, rfl⟩ := h
  intro k hk1 hk2 hocc
  have hlo : lo ≤ k := by omega
  apply rfindSub_greatest _ _ _ hsub hm (k - lo) (by omega)
  simp only [OccAt, List.isPrefixOf_iff_prefix] at hocc ⊢
  have h2 : List.drop (k - lo) (List.drop lo s) = List.drop k s := by
    rw [List.drop_drop]
    congr 1
    omega
  rw [List.drop_take, h2]
  refine List.prefix_take_iff.mpr ⟨hocc, ?_⟩
  omega

/-- Python `str.lower`, faithful for the ASCII data this pipeline compares. -/
def strLower (s : List Char) : List Char := s.map Char.toLower

/-- Python `os.path.basename` (POSIX): the part after the last slash. -/
def basename (p : List Char) : List Char :=
  match rfindSub p ['/'] with
  | some i => p.drop (i + 1)
  | none => p

/-- CPython `PurePath.suffix`: with `i` the index of the last dot of the
final path component, the slice from `i` when `0 < i < len - 1`, else empty. -/
def pathSuffix (p : List Char) : List Char :=
  let name := basename p
  match rfindSub name ['.'] with
  | some i => if 0 < i ∧ i + 1 < name.length then name.drop i else []
  | none => []

/-- Decimal digits of a natural number, as Python renders it. -/
def natStr (n : Nat) : List Char := Nat.toDigits 10 n

/-- Python format spec `{i:03d}` for a non-negative `i`. -/
def pad3 (i : Nat) : List Char :=
  if i < 10 then '0' :: '0' :: natStr i
  else if i < 100 then '0' :: natStr i
  else natStr i

/-- Python `Path(orig_name).suffix or ".png"` from `clean_lo_html`. -/
def extOrPng (name : List Char) : List Char :=
  let e := pathSuffix name
  if e = [] then ".png".data else e

/-- The sequential name `img{i:03d}{ext}` given to the `i`-th sorted image. -/
def seqImgName (i : Nat) (orig : List Char) : List Char :=
  "img".data ++ pad3 i ++ extOrPng orig

/-- The rename map built by `clean_lo_html` (lines 123-129): sort the original
names, then pair each with `img{i:03d}{ext}` counting from 1. -/
def imgMapOf (imageFiles : List (List Char)) : List (List Char × List Char) :=
  (pySorted imageFiles).enum.map fun p => (p.2, seqImgName (p.1 + 1) p.2)

/-- Python `dict` lookup on an association-list model.  Every dict this
pipeline builds (the rename map over distinct directory filenames, the
per-theme stats) has distinct keys, so first-binding lookup is the dict
lookup. -/
def dictLookup {α β : Type} [DecidableEq α] (m : List (α × β)) (k : α) : Option β :=
  (m.find? fun p => p.1 == k).map fun p => p.2

/-- Python `k in d` for the same dict model. -/
def dictMem {α β : Type} [DecidableEq α] (m : List (α × β)) (k : α) : Bool :=
  (dictLookup m k).isSome

/-- The fixed container opening tag searched by `update_reader_page`. -/
def openTag : List Char := "<div class=\"reader-content\">".data

/-- The download-link anchor text searched by `update_reader_page`. -/
def fileLinkTag : List Char := "<a class=\"file-link-btn\"".data

/-- The closing tag searched by `update_reader_page`. -/
def closeDivTag : List Char := "</div>".data

/-- The idempotency marker comment written by `update_reader_page`. -/
def loMarker : List Char := "<!-- lo-images -->".data

/-- The text spliced into the container: newline, marker, newline, cleaned
body, newline (line 347 of `update_reader_page`). -/
def insertedBlock (newBody : List Char) : List Char :=
  '\n' :: (loMarker ++ '\n' :: (newBody ++ ['\n']))

/-- Lines 321-343 of `update_reader_page`: locate `(content_start, close_idx)`
or return `none` when the page is aborted with a warning. -/
def locateRegion (page : List Char) : Option (Nat × Nat) :=
  match findSub page openTag with
  | none => none
  | some openIdx =>
    let contentStart := openIdx + openTag.length
    let closeIdx :=
      match findFrom page fileLinkTag contentStart with
      | some fileLinkIdx =>
        match rfindIn page closeDivTag contentStart fileLinkIdx with
        | some c => some c
        | none => findFrom page closeDivTag contentStart
      | none => findFrom page closeDivTag contentStart
    match closeIdx with
    | none => none
    | some c => some (contentStart, c)

/-- Lines 345-349 of `update_reader_page`: the new page content spliced
together, when the region was located. -/
def patchedContent (page newBody : List Char) : Option (List Char) :=
  (locateRegion page).map fun r =>
    page.take r.1 ++ insertedBlock newBody ++ page.drop r.2

theorem locateRegion_bounds {page : List Char} {cs ci : Nat}
    (h : locateRegion page = some (cs, ci)) :
    ∃ oi, findSub page openTag = some oi ∧ cs = oi + openTag.length ∧
      cs ≤ page.length ∧ cs ≤ ci ∧ ci + closeDivTag.length ≤ page.length := by
  unfold locateRegion at h
  match hfind : findSub page openTag with
  | none => rw [hfind] at h; simp at h
  | some oi =>
    rw [hfind] at h
    simp only at h
    have hocc := findSub_occ _ _ _ hfind
    have hbound := occ_length_le hocc
    have hopenne : openTag ≠ [] := by decide
    have hcs : oi + openTag.length ≤ page.length := by
      rcases hbound with hb | hb
      · exact hb
      · exact absurd hb hopenne
    have hclosene : closeDivTag ≠ [] := by decide
    refine ⟨oi, rfl, ?_⟩
    match hfl : findFrom page fileLinkTag (oi + openTag.length) with
    | some fli =>
      rw [hfl] at h
      simp only at h
      match hrf : rfindIn page closeDivTag (oi + openTag.length) fli with
      | some c =>
        rw [hrf] at h
        simp only [Option.some.injEq, Prod.mk.injEq] at h
        obtain ⟨rfl, rfl⟩ := h
        have := rfindIn_occ hclosene hrf
        exact ⟨rfl, hcs, this.2.1, this.2.2.2⟩
      | none =>
        rw [hrf] at h
        match hff : findFrom page closeDivTag (oi + openTag.length) with
        | none => rw [hff] at h; simp at h
        | some c =>
          rw [hff] at h
          simp only [Option.some.injEq, Prod.mk.injEq] at h
          obtain ⟨rfl, rfl⟩ := h
          have hoc := findFrom_occ hff
          have := occ_length_le hoc.1
          rcases this with hb | hb
          · exact ⟨rfl, hcs, hoc.2, hb⟩
          · exact absurd hb hclosene
    | none =>
      rw [hfl] at h
      simp only at h
      match hff : findFrom page closeDivTag (oi + openTag.length) with
      | none => rw [hff] at h; simp at h
      | some c =>
        rw [hff] at h
        simp only [Option.some.injEq, Prod.mk.injEq] at h
        obtain ⟨rfl, rfl⟩ := h
        have hoc := findFrom_occ hff
        have := occ_length_le hoc.1
        rcases this with hb | hb
        · exact ⟨rfl, hcs, hoc.2, hb⟩
        · exact absurd hb hclosene

/-- Total UTF-8 byte length of a Python string, `len(s.encode("utf-8"))`. -/
def utf8Len (s : List Char) : Nat := (s.map Char.utf8Size).sum

/-- A filesystem mutation performed by the pipeline.  Directories are
identified by the page slug (for `img/<slug>`) or the temporary-directory
name; reads are not events. -/
inductive FsEvent
  | mkdirImgDir (slug : List Char)
  | copyImage (src : List Char) (dstName : List Char)
  | writePage (path : List Char) (content : List Char)
  | removeTree (dir : List Char)
  | writeReport
deriving DecidableEq

/-- One `success` conversion result dict as phase 3 consumes it, together
with the filesystem facts `update_reader_page` reads: the target page's
current text and stat size, and each pending image's temporary path, renamed
name and byte size. -/
structure SuccessResult where
  theme : List Char
  source : List Char
  reader : List Char
  readerSlug : List Char
  pageContent : List Char
  beforeSize : Nat
  bodyHtml : List Char
  imageFiles : List (List Char × List Char × Nat)
  tmpdir : Option (List Char)
  numImages : Nat

/-- Sum of the byte sizes of a result's pending image files. -/
def sumImgSizes (imgs : List (List Char × List Char × Nat)) : Nat :=
  (imgs.map fun x => x.2.2).sum

/-- The copy loop of `update_reader_page` (lines 356-359), with an oracle
saying whether some copy raises: `failAt = some i` with `i` in range means
the `i`-th `shutil.copy2` call fails after the first `i` copies completed.
Returns the copy events that happened and whether the loop completed. -/
def runCopies (imgs : List (List Char × List Char × Nat)) (failAt : Option Nat) :
    List FsEvent × Bool :=
  match failAt with
  | none => (imgs.map fun x => FsEvent.copyImage x.1 x.2.1, true)
  | some i =>
    if i < imgs.length then
      ((imgs.take i).map fun x => FsEvent.copyImage x.1 x.2.1, false)
    else (imgs.map fun x => FsEvent.copyImage x.1 x.2.1, true)

/-- `update_reader_page(result, dry_run)`: the filesystem events it performs
and, unless a copy raised (`none`), the returned `(before, after)` pair.
Mirrors lines 301-365: the dry-run branch computes the estimate without any
event; an unlocatable splice region warns and returns `(before, before)`;
otherwise the images are copied into `img/<slug>` and the spliced page is
written, and `after` is the new page size plus the copied image sizes. -/
def updateReaderPage (r : SuccessResult) (dryRun : Bool) (failAt : Option Nat) :
    List FsEvent × Option (Nat × Nat) :=
  if dryRun then
    ([], some (r.beforeSize, r.beforeSize + utf8Len r.bodyHtml + sumImgSizes r.imageFiles))
  else
    match patchedContent r.pageContent r.bodyHtml with
    | none => ([], some (r.beforeSize, r.beforeSize))
    | some newContent =>
      let copied := runCopies r.imageFiles failAt
      if copied.2 then
        (FsEvent.mkdirImgDir r.readerSlug :: copied.1 ++
           [FsEvent.writePage r.reader newContent],
         some (r.beforeSize, utf8Len newContent + sumImgSizes r.imageFiles))
      else
        (FsEvent.mkdirImgDir r.readerSlug :: copied.1, none)

/-- One iteration of the phase-3 loop (lines 473-488): run
`update_reader_page`, then remove the job's retained temporary directory.
A copy failure propagates out of the loop, so the `rmtree` is skipped. -/
def phase3Step (r : SuccessResult) (dryRun : Bool) (failAt : Option Nat) :
    List FsEvent × Option (Nat × Nat) :=
  let u := updateReaderPage r dryRun failAt
  match u.2 with
  | none => (u.1, none)
  | some ba =>
    match r.tmpdir with
    | some d => (u.1 ++ [FsEvent.removeTree d], some ba)
    | none => (u.1, some ba)

/-- Per-theme counters accumulated by phase 3 (`theme_stats`). -/
structure ThemeStat where
  updated : Nat
  images : Nat
  before : Nat
  after : Nat
deriving DecidableEq

/-- The zero entry a theme gets when first seen (line 476). -/
def ThemeStat.init : ThemeStat := ⟨0, 0, 0, 0⟩

/-- Update an insertion-ordered Python dict at a key, inserting the default
first if absent. -/
def updateAL {α β : Type} [DecidableEq α] (m : List (α × β)) (k : α) (f : β → β)
    (dflt : β) : List (α × β) :=
  match m with
  | [] => [(k, f dflt)]
  | (k2, v) :: rest =>
    if k2 = k then (k2, f v) :: rest else (k2, v) :: updateAL rest k f dflt

/-- Lines 475-483: the `theme_stats` update for one processed result. -/
def bumpStats (stats : List (List Char × ThemeStat)) (r : SuccessResult)
    (ba : Nat × Nat) : List (List Char × ThemeStat) :=
  updateAL stats r.theme
    (fun s => ⟨s.updated + 1, s.images + r.numImages, s.before + ba.1, s.after + ba.2⟩)
    ThemeStat.init

/-- Sort the success results by target page identity, as line 473 does. -/
def sortByReader (rs : List SuccessResult) : List SuccessResult :=
  List.insertionSort (fun a b => StrLe a.reader b.reader) rs

/-- One fold step of the phase-3 loop on an unfailing run. -/
def phase3Acc (dryRun : Bool) (acc : List FsEvent × List (List Char × ThemeStat))
    (r : SuccessResult) : List FsEvent × List (List Char × ThemeStat) :=
  let st := phase3Step r dryRun none
  (acc.1 ++ st.1, bumpStats acc.2 r (st.2.getD (0, 0)))

/-- The whole phase-3 loop on an unfailing run: events performed and the
final `theme_stats`. -/
def phase3 (rs : List SuccessResult) (dryRun : Bool) :
    List FsEvent × List (List Char × ThemeStat) :=
  (sortByReader rs).foldl (phase3Acc dryRun) ([], [])

/-- Total `updated` count summed over themes, as the phase-4 report totals
it (lines 500-516, 532-537). -/
def sumUpdated (stats : List (List Char × ThemeStat)) : Nat :=
  (stats.map fun p => p.2.updated).sum

/-- Number of page writes in an event trace. -/
def countWrites (evs : List FsEvent) : Nat :=
  evs.countP fun e => match e with | FsEvent.writePage _ _ => true | _ => false

/-- The run's trailing report write (line 552), performed for dry runs too. -/
def mainTailEvents : List FsEvent := [FsEvent.writeReport]

/-- All filesystem events of phase 3 followed by the report write, for a run
with the given results and dry-run flag. -/
def runEvents (rs : List SuccessResult) (dryRun : Bool) : List FsEvent :=
  (phase3 rs dryRun).1 ++ mainTailEvents

/-- Python regex whitespace class over the ASCII range this data uses. -/
def isPySpace (c : Char) : Bool :=
  c = ' ' || c = '\t' || c = '\n' || c = '\r' || c = '\x0b' || c = '\x0c'

/-- Left-to-right non-overlapping rewriting scan, fuelled for structural
recursion; `scanRw` below supplies enough fuel.  When the fuel runs out the
rest of the text is kept, which never happens for fuel at least the length. -/
def scanRwAux (f : List Char → Option (Nat × List Char)) : Nat → List Char → List Char
  | _, [] => []
  | 0, c :: t => c :: t
  | fuel + 1, c :: t =>
    match f (c :: t) with
    | some (n, out) =>
      if 0 < n then out ++ scanRwAux f fuel ((c :: t).drop n)
      else c :: scanRwAux f fuel t
    | none => c :: scanRwAux f fuel t

/-- The semantics of `re.sub` for the patterns used in `clean_lo_html`: at
each position `f` either matches a non-empty prefix of the remaining text,
giving its length and the replacement, or fails and the character is kept. -/
def scanRw (f : List Char → Option (Nat × List Char)) (s : List Char) : List Char :=
  scanRwAux f s.length s

theorem scanRwAux_congr (f : List Char → Option (Nat × List Char)) :
    ∀ fuel1 fuel2 s, s.length ≤ fuel1 → s.length ≤ fuel2 →
      scanRwAux f fuel1 s = scanRwAux f fuel2 s
  | _, _, [], _, _ => by
    rw [scanRwAux, scanRwAux]
  | 0, _, _ :: _, h1, _ => by simp at h1
  | _ + 1, 0, _ :: _, _, h2 => by simp at h2
  | f1 + 1, f2 + 1, c :: t, h1, h2 => by
    rw [scanRwAux, scanRwAux]
    simp only [List.length_cons] at h1 h2
    match hm : f (c :: t) with
    | some (n, out) =>
      by_cases hn : 0 < n
      · simp only [hn, if_true]
        have hd : ((c :: t).drop n).length ≤ f1 := by
          simp only [List.length_drop, List.length_cons]
          omega
        have hd2 : ((c :: t).drop n).length ≤ f2 := by
          simp only [List.length_drop, List.length_cons]
          omega
        rw [scanRwAux_congr f f1 f2 _ hd hd2]
      · simp only [hn, if_false]
        rw [scanRwAux_congr f f1 f2 t (by omega) (by omega)]
    | none =>
      rw [scanRwAux_congr f f1 f2 t (by omega) (by omega)]

theorem scanRw_nil (f : List Char → Option (Nat × List Char)) : scanRw f [] = [] := rfl

theorem scanRw_cons_none {f : List Char → Option (Nat × List Char)} {c : Char}
    {t : List Char} (h : f (c :: t) = none) :
    scanRw f (c :: t) = c :: scanRw f t := by
  show scanRwAux f (t.length + 1) (c :: t) = c :: scanRwAux f t.length t
  rw [scanRwAux, h]

theorem scanRw_cons_some {f : List Char → Option (Nat × List Char)} {c : Char}
    {t out : List Char} {n : Nat} (h : f (c :: t) = some (n, out)) (hn : 0 < n) :
    scanRw f (c :: t) = out ++ scanRw f ((c :: t).drop n) := by
  show scanRwAux f (t.length + 1) (c :: t) = out ++ scanRw f ((c :: t).drop n)
  rw [scanRwAux, h]
  simp only [hn, if_true]
  congr 1
  apply scanRwAux_congr
  · simp only [List.length_drop, List.length_cons]
    omega
  · exact le_refl _

/-- If no suffix of `p` (continued by `rest`) starts a match, the scan
passes `p` through untouched. -/
theorem scanRw_append_none (f : List Char → Option (Nat × List Char)) :
    ∀ p rest : List Char,
      (∀ p1 p2, p = p1 ++ p2 → p2 ≠ [] → f (p2 ++ rest) = none) →
      scanRw f (p ++ rest) = p ++ scanRw f rest
  | [], rest, _ => by simp
  | c :: p, rest, h => by
    have h0 : f (c :: (p ++ rest)) = none := by
      have := h [] (c :: p) rfl (by simp)
      simpa using this
    rw [List.cons_append, scanRw_cons_none h0]
    rw [scanRw_append_none f p rest fun p1 p2 hp hne => h (c :: p1) p2 (by simp [hp]) hne]
    simp

/-- Case-insensitive literal match: `lit` (given lowercase) against the
start of `s`, as `re.IGNORECASE` matches the ASCII literals used here. -/
def ciPrefix (lit s : List Char) : Bool :=
  lit.isPrefixOf (strLower (s.take lit.length))

/-- The three class tokens removed by line 107. -/
def classTokens : List (List Char) :=
  ["class=\"western\"".data, "class=\"cjk\"".data, "class=\"ctl\"".data]

/-- Matcher for `\s+LIT` with `LIT` one of several literals starting with a
non-space character: the greedy `\s+` forces the literal to sit at the end
of the maximal whitespace run. -/
def matchWsLiteral (lits : List (List Char)) (s : List Char) : Option (Nat × List Char) :=
  let ws := s.takeWhile isPySpace
  if ws = [] then none
  else
    match lits.find? fun l => l.isPrefixOf (s.drop ws.length) with
    | some l => some (ws.length + l.length, [])
    | none => none

/-- The literal of the font-size pattern of line 110. -/
def fontSizeLit : List Char := "font-size".data

/-- Matcher for line 110, `font-size\s*:\s*[^;"\x7d]+;?\s*`. -/
def matchFontSize (s : List Char) : Option (Nat × List Char) :=
  if fontSizeLit.isPrefixOf s then
    let r1 := s.drop fontSizeLit.length
    let ws1 := r1.takeWhile isPySpace
    match r1.drop ws1.length with
    | ':' :: r3 =>
      let ws2 := r3.takeWhile isPySpace
      let r4 := r3.drop ws2.length
      let body := r4.takeWhile fun c => !(c = ';' || c = '"' || c = '\x7d')
      if body = [] then none
      else
        match r4.drop body.length with
        | ';' :: r6 =>
          let ws3 := r6.takeWhile isPySpace
          some (fontSizeLit.length + ws1.length + 1 + ws2.length +
            body.length + 1 + ws3.length, [])
        | r5 =>
          let ws3 := r5.takeWhile isPySpace
          some (fontSizeLit.length + ws1.length + 1 + ws2.length +
            body.length + ws3.length, [])
    | _ => none
  else none

/-- Matcher for line 113, `\s+style="\s*"`. -/
def matchEmptyStyle (s : List Char) : Option (Nat × List Char) :=
  let ws := s.takeWhile isPySpace
  if ws = [] then none
  else
    let rest := s.drop ws.length
    if "style=\"".data.isPrefixOf rest then
      let r2 := rest.drop 7
      let ws2 := r2.takeWhile isPySpace
      match r2.drop ws2.length with
      | '"' :: _ => some (ws.length + 7 + ws2.length + 1, [])
      | _ => none
    else none

/-- Matcher for line 117, `<div[^>]*column-count[^>]*>` (case-insensitive):
the span from `<div` to the first following `>`, when that span contains
`column-count`. -/
def matchColumnDiv (s : List Char) : Option (Nat × List Char) :=
  if ciPrefix "<div".data s then
    let rest := s.drop 4
    let inner := rest.takeWhile (· ≠ '>')
    match rest.drop inner.length with
    | '>' :: _ =>
      if containsSub (strLower inner) "column-count".data then
        some (4 + inner.length + 1, [])
      else none
    | _ => none
  else none

/-- The literal searched by `re.search(r'src="([^"]*)"', ...)` on line 135. -/
def srcPat : List Char := "src=\"".data

/-- Line 135: the captured group of the first full match of `src="([^"]*)"`
in the tag content, scanning forward when a candidate has no closing quote. -/
def searchSrcVal : List Char → Option (List Char)
  | [] => none
  | c :: t =>
    if srcPat.isPrefixOf (c :: t) then
      let afterQ := (c :: t).drop srcPat.length
      let v := afterQ.takeWhile (· ≠ '"')
      match afterQ.drop v.length with
      | '"' :: _ => some v
      | _ => searchSrcVal t
    else searchSrcVal t

/-- Hexadecimal digit test for percent-escapes. -/
def isHexDigit (c : Char) : Bool :=
  (48 ≤ c.toNat && c.toNat ≤ 57) || (97 ≤ c.toNat && c.toNat ≤ 102) ||
    (65 ≤ c.toNat && c.toNat ≤ 70)

/-- Value of a hexadecimal digit. -/
def hexVal (c : Char) : Nat :=
  if c.toNat ≤ 57 then c.toNat - 48
  else if c.toNat ≤ 70 then c.toNat - 55
  else c.toNat - 87

/-- `urllib.parse.unquote`, modelled at the single-byte level: a valid
`%XX` escape becomes the character with code `XX`, anything else is kept.
Multi-byte UTF-8 escape sequences (absent from this pipeline's
LibreOffice-generated references) are not recombined. -/
def pctDecode : List Char → List Char
  | '%' :: a :: b :: t =>
    if isHexDigit a && isHexDigit b then
      Char.ofNat (16 * hexVal a + hexVal b) :: pctDecode t
    else '%' :: pctDecode (a :: b :: t)
  | c :: t => c :: pctDecode t
  | [] => []

/-- Python `str.strip()` over the ASCII whitespace this data uses. -/
def pyStrip (s : List Char) : List Char :=
  ((s.dropWhile isPySpace).reverse.dropWhile isPySpace).reverse

/-- The four presentational attribute names stripped on line 148. -/
def attrNames : List (List Char) :=
  ["width".data, "height".data, "border".data, "name".data]

/-- Matcher for line 148, `\s+(width|height|border|name)="[^"]*"`. -/
def matchAttrStrip (s : List Char) : Option (Nat × List Char) :=
  let ws := s.takeWhile isPySpace
  if ws = [] then none
  else
    let rest := s.drop ws.length
    match attrNames.find? fun a => (a ++ "=\"".data).isPrefixOf rest with
    | some a =>
      let r2 := rest.drop (a.length + 2)
      let v := r2.takeWhile (· ≠ '"')
      match r2.drop v.length with
      | '"' :: _ => some (ws.length + a.length + 2 + v.length + 1, [])
      | _ => none
    | none => none

/-- Matcher for line 150, `src="[^"]*"` replaced by `src="{new_src}"`. -/
def matchSrcAttr (newSrc : List Char) (s : List Char) : Option (Nat × List Char) :=
  if srcPat.isPrefixOf s then
    let r := s.drop srcPat.length
    let v := r.takeWhile (· ≠ '"')
    match r.drop v.length with
    | '"' :: _ => some (srcPat.length + v.length + 1, srcPat ++ newSrc ++ ['"'])
    | _ => none
  else none

/-- The function `rewrite_img` (lines 132-152) applied to one matched
`<img>` tag: `g0` is the whole match, `g1` the captured attribute text. -/
def rewrite_img (imap : List (List Char × List Char)) (readerSlug : List Char)
    (g0 g1 : List Char) : List Char :=
  match searchSrcVal g1 with
  | none => g0
  | some v =>
    let srcBase := basename (pctDecode v)
    match dictLookup imap srcBase with
    | none => g0
    | some newName =>
      let newSrc := "img/".data ++ readerSlug ++ '/' :: newName
      let cleaned := scanRw matchAttrStrip g1
      let cleaned2 := scanRw (matchSrcAttr newSrc) cleaned
      "<img ".data ++ pyStrip cleaned2 ++ ['>']

/-- Matcher for line 154, `<img\s+([^>]*)/?>` (case-insensitive) rewritten
through `rewrite_img`: after `<img` and the greedy whitespace run, the
captured group runs to the first `>`. -/
def matchImgTag (imap : List (List Char × List Char)) (readerSlug : List Char)
    (s : List Char) : Option (Nat × List Char) :=
  if ciPrefix "<img".data s then
    let rest := s.drop 4
    let ws := rest.takeWhile isPySpace
    if ws = [] then none
    else
      let r2 := rest.drop ws.length
      let inner := r2.takeWhile (· ≠ '>')
      match r2.drop inner.length with
      | '>' :: _ =>
        let n := 4 + ws.length + inner.length + 1
        some (n, rewrite_img imap readerSlug (s.take n) inner)
      | _ => none
  else none

/-- Attribute text of a start tag parsed into (name, optional value) pairs,
as `html.parser` reports them to `TagStripper`: whitespace-separated names,
optionally `="value"` quoted.  A trailing `/` ends the list.  Fuelled for
structural recursion; callers supply fuel at least the length. -/
def parseAttrs : Nat → List Char → List (List Char × Option (List Char))
  | 0, _ => []
  | fuel + 1, s =>
    let s1 := s.dropWhile isPySpace
    match s1 with
    | [] => []
    | '/' :: _ => []
    | _ =>
      let name := s1.takeWhile fun c => !(isPySpace c || c = '=' || c = '/')
      let r := s1.drop name.length
      match r with
      | '=' :: '"' :: r2 =>
        let v := r2.takeWhile (· ≠ '"')
        match r2.drop v.length with
        | '"' :: r3 => (name, some v) :: parseAttrs fuel r3
        | _ => [(name, some v)]
      | _ => (name, none) :: parseAttrs fuel r

/-- Python `' '.join(parts)`. -/
def joinSpace : List (List Char) → List Char
  | [] => []
  | [x] => x
  | x :: xs => x ++ ' ' :: joinSpace xs

/-- One attribute as `TagStripper._rebuild_tag` re-renders it. -/
def rebuildAttr (a : List Char × Option (List Char)) : List Char :=
  match a.2 with
  | none => strLower a.1
  | some v => strLower a.1 ++ '=' :: '"' :: (v ++ ['"'])

/-- `TagStripper._rebuild_tag`: lower-cased tag and attribute names joined
by single spaces, with `' /'` appended for a self-closing tag. -/
def rebuildTag (name : List Char) (attrs : List (List Char × Option (List Char)))
    (selfClosing : Bool) : List Char :=
  '<' :: (joinSpace (strLower name :: attrs.map rebuildAttr) ++
    (if selfClosing then [' ', '/'] else []) ++ ['>'])

/-- The `TagStripper` pass of `strip_tags` (lines 39-90), modelled as a
single-pass tokenizer, faithful to `html.parser.HTMLParser` on well-formed
markup with double-quoted attributes: comments, data, and character
references are re-emitted verbatim; a start or end tag whose lower-cased
name is in `stripSet` is dropped; every other tag is re-rendered
lower-cased by `rebuildTag`.  Fuelled for structural recursion. -/
def stripTagsAux (stripSet : List (List Char)) : Nat → List Char → List Char
  | 0, s => s
  | _, [] => []
  | fuel + 1, c :: rest =>
    if c = '<' then
      if "!--".data.isPrefixOf rest then
        let after := rest.drop 3
        match findSub after "-->".data with
        | some i =>
          "<!--".data ++ after.take i ++ "-->".data ++
            stripTagsAux stripSet fuel (after.drop (i + 3))
        | none => '<' :: rest
      else
        match rest with
        | '/' :: r2 =>
          let name := r2.takeWhile (· ≠ '>')
          match r2.drop name.length with
          | '>' :: r3 =>
            (if strLower name ∈ stripSet then [] else
              '<' :: '/' :: (strLower name ++ ['>'])) ++
              stripTagsAux stripSet fuel r3
          | _ => '<' :: rest
        | _ =>
          let inner := rest.takeWhile (· ≠ '>')
          match rest.drop inner.length with
          | '>' :: r3 =>
            let name := inner.takeWhile fun ch => !(isPySpace ch || ch = '/')
            let attrText := inner.drop name.length
            let selfClosing := inner.getLast? = some '/'
            let attrs := parseAttrs (attrText.length + 1) attrText
            (if strLower name ∈ stripSet then [] else
              rebuildTag name attrs selfClosing) ++
              stripTagsAux stripSet fuel r3
          | _ => '<' :: rest
    else c :: stripTagsAux stripSet fuel rest

/-- `strip_tags(html_str, tags)` (lines 86-90). -/
def strip_tags (s : List Char) (tags : List (List Char)) : List Char :=
  stripTagsAux (tags.map strLower) (s.length + 1) s

/-- `clean_lo_html(body_html, image_files, reader_slug)` (lines 93-156):
the cleaned fragment and the image rename map. -/
def clean_lo_html (bodyHtml : List Char) (imageFiles : List (List Char))
    (readerSlug : List Char) : List Char × List (List Char × List Char) :=
  let r1 := strip_tags bodyHtml ["font".data]
  let r2 := scanRw (matchWsLiteral classTokens) r1
  let r3 := scanRw matchFontSize r2
  let r4 := scanRw matchEmptyStyle r3
  let r5 := scanRw matchColumnDiv r4
  let imap := imgMapOf imageFiles
  let r6 := scanRw (matchImgTag imap readerSlug) r5
  (r6, imap)

/-- Image extensions accepted by line 267. -/
def imageExts : List (List Char) :=
  [".png".data, ".jpg".data, ".jpeg".data, ".gif".data, ".bmp".data,
   ".tiff".data, ".tif".data, ".svg".data, ".wmf".data, ".emf".data]

/-- Outcome of the `subprocess.run` call on line 242. -/
inductive ProcOutcome
  | timeout
  | done (returncode : Int) (stderr : List Char)

/-- The environment one `convert_one` job observes: its identifying data,
the names found in its temporary directory after conversion (in scan
order), the body text `extract_lo_body` yields for the HTML output, the
subprocess outcome, and an optional exception raised during
extraction/cleaning. -/
structure ConvEnv where
  theme : List Char
  source : List Char
  reader : List Char
  readerSlug : List Char
  tmpdir : List Char
  dirFiles : List (List Char)
  bodyHtml : List Char
  proc : ProcOutcome
  cleanFails : Option (List Char)

/-- The result dict built by `convert_one` (lines 216-296).  Keys that are
only present on success (`body_html`, `image_files`, `num_images`,
`_tmpdir`) are an `Option` or default to the empty list. -/
structure ConvResult where
  theme : List Char
  source : List Char
  reader : List Char
  readerSlug : List Char
  images : List (List Char)
  error : Option (List Char)
  skipped : Bool
  bodyHtml : Option (List Char)
  imageFiles : List (List Char × List Char)
  numImages : Option Nat
  tmpdirKept : Option (List Char)

/-- `proc.stderr[:200]` of line 250. -/
def take200 (s : List Char) : List Char := s.take 200

/-- The result dict as initialised on lines 216-224, before the `try`
block mutates it. -/
def convBase (env : ConvEnv) : ConvResult :=
  { theme := env.theme, source := env.source, reader := env.reader,
    readerSlug := env.readerSlug, images := [], error := none,
    skipped := false, bodyHtml := none, imageFiles := [],
    numImages := none, tmpdirKept := none }

/-- The `try` block of `convert_one` (lines 228-283): the result dict
before the `finally` clause runs. -/
def convertOneResult (env : ConvEnv) : ConvResult :=
  let base : ConvResult := convBase env
  match env.proc with
  | ProcOutcome.timeout => { base with error := some "Timeout after 60s".data }
  | ProcOutcome.done rc stderr =>
    if rc ≠ 0 then
      { base with error := some ("LO exit code ".data ++ (toString rc).data ++
          ": ".data ++ take200 stderr) }
    else
      let htmlFiles := env.dirFiles.filter (fun f => ".html".data.isSuffixOf f) ++
        env.dirFiles.filter (fun f => ".htm".data.isSuffixOf f)
      match htmlFiles with
      | [] => { base with error := some "No HTML output produced".data }
      | loHtml :: _ =>
        let imageFiles := (pySorted env.dirFiles).filter fun f =>
          (f != loHtml) && imageExts.contains (strLower (pathSuffix f))
        if imageFiles = [] then { base with skipped := true }
        else
          match env.cleanFails with
          | some msg => { base with error := some msg }
          | none =>
            let cleaned := clean_lo_html env.bodyHtml imageFiles env.readerSlug
            { base with
              bodyHtml := some cleaned.1,
              imageFiles := imageFiles.map fun f => (f, (dictLookup cleaned.2 f).getD f),
              images := cleaned.2.map fun p => p.2,
              numImages := some imageFiles.length }

/-- `convert_one` (lines 210-296): the result dict and the filesystem
events of its `finally` block (lines 289-294), which removes the temporary
directory exactly when no image files are pending copy and otherwise
records the retained directory under `_tmpdir`. -/
def convertOne (env : ConvEnv) : ConvResult × List FsEvent :=
  if (convertOneResult env).imageFiles ≠ [] then
    ({ convertOneResult env with tmpdirKept := some env.tmpdir }, [])
  else (convertOneResult env, [FsEvent.removeTree env.tmpdir])

/-- The idempotency-marker filter of `main` (lines 402-413): unless
`--force`, drop every mapping entry whose reader page content contains the
marker, and count the dropped entries as skipped-existing.  An entry is a
`((theme, source_filename), page_content)` pair. -/
def filterProcessed (force : Bool)
    (pages : List ((List Char × List Char) × List Char)) :
    List ((List Char × List Char) × List Char) × Nat :=
  if force then (pages, 0)
  else (pages.filter fun p => !containsSub p.2 loMarker,
        pages.countP fun p => containsSub p.2 loMarker)

/-- The convertible-extension set of line 421. -/
def convertibleExts : List (List Char) :=
  [".doc".data, ".docx".data, ".rtf".data, ".odt".data]

/-- Line 420-422: a mapped source file proceeds to job creation only when
`source_path.suffix.lower()` is in the convertible set. -/
def isConvertible (sourceFilename : List Char) : Bool :=
  convertibleExts.contains (strLower (pathSuffix sourceFilename))

/-- Python tuple comparison on `(theme, source)` mapping keys. -/
def keyLeB (a b : List Char × List Char) : Bool :=
  if a.1 = b.1 then strLeB a.2 b.2 else strLeB a.1 b.1

/-- `sorted(mapping.items())` of line 417. -/
def sortMapping (m : List ((List Char × List Char) × List Char)) :
    List ((List Char × List Char) × List Char) :=
  List.insertionSort (fun a b => keyLeB a.1 b.1 = true) m

/-- Lines 417-424: the work list drawn from the sorted mapping, keeping
exactly the convertible source files. -/
def workList (m : List ((List Char × List Char) × List Char)) :
    List ((List Char × List Char) × List Char) :=
  (sortMapping m).filter fun it => isConvertible it.1.2

/-- The `updated` count recorded for a theme, 0 when the theme is absent. -/
def updatedOf (stats : List (List Char × ThemeStat)) (t : List Char) : Nat :=
  ((dictLookup stats t).map ThemeStat.updated).getD 0

theorem dictLookup_nil {α β : Type} [DecidableEq α] (k : α) :
    dictLookup ([] : List (α × β)) k = none := rfl

theorem dictLookup_cons {α β : Type} [DecidableEq α] (p : α × β) (m : List (α × β))
    (k : α) : dictLookup (p :: m) k = if p.1 = k then some p.2 else dictLookup m k := by
  by_cases h : p.1 = k <;> simp [dictLookup, List.find?_cons, h]

theorem dictLookup_updateAL {α β : Type} [DecidableEq α]
    (m : List (α × β)) (k k2 : α) (f : β → β) (dflt : β) :
    dictLookup (updateAL m k f dflt) k2 =
      if k2 = k then some (f ((dictLookup m k).getD dflt))
      else dictLookup m k2 := by
  induction m with
  | nil =>
    rw [updateAL, dictLookup_cons]
    by_cases h : k2 = k
    · subst h
      simp [dictLookup_nil]
    · have h2 : ¬ k = k2 := fun hq => h hq.symm
      simp [dictLookup_nil, h, h2]
  | cons p rest ih =>
    rw [updateAL]
    by_cases hp : p.1 = k
    · simp only [hp, if_true]
      simp only [dictLookup_cons]
      by_cases h : k2 = k
      · subst h
        simp [hp]
      · have h2 : ¬ p.1 = k2 := by
          rw [hp]
          exact fun hq => h hq.symm
        have h4 : ¬ k = k2 := fun hq => h hq.symm
        simp [h, h2, h4]
    · simp only [hp, if_false]
      simp only [dictLookup_cons]
      rw [ih]
      by_cases h3 : p.1 = k2
      · have h2 : ¬ k2 = k := by
          rw [← h3]
          exact hp
        simp [h3, h2]
      · simp [h3, hp]

theorem updatedOf_bumpStats (stats : List (List Char × ThemeStat))
    (r : SuccessResult) (ba : Nat × Nat) (t : List Char) :
    updatedOf (bumpStats stats r ba) t =
      updatedOf stats t + (if t = r.theme then 1 else 0) := by
  unfold updatedOf bumpStats
  rw [dictLookup_updateAL]
  by_cases h : t = r.theme
  · simp only [h, if_true]
    match hl : dictLookup stats r.theme with
    | none =>
      show (ThemeStat.init.updated + 1 : Nat) = Option.getD (Option.map ThemeStat.updated none) 0 + 1
      rfl
    | some v => simp
  · simp [h]

theorem sumUpdated_bumpStats (stats : List (List Char × ThemeStat))
    (r : SuccessResult) (ba : Nat × Nat) :
    sumUpdated (bumpStats stats r ba) = sumUpdated stats + 1 := by
  unfold bumpStats
  induction stats with
  | nil => simp [updateAL, sumUpdated, ThemeStat.init]
  | cons p rest ih =>
    rw [updateAL]
    by_cases h : p.1 = r.theme
    · simp only [h, if_true]
      simp [sumUpdated]
      omega
    · simp only [h, if_false]
      simp only [sumUpdated, List.map_cons, List.sum_cons] at ih ⊢
      omega

theorem phase3_foldl_sumUpdated (d : Bool) :
    ∀ (l : List SuccessResult) (acc : List FsEvent × List (List Char × ThemeStat)),
      sumUpdated ((l.foldl (phase3Acc d) acc).2) = sumUpdated acc.2 + l.length
  | [], acc => by simp
  | r :: l, acc => by
    rw [List.foldl_cons, phase3_foldl_sumUpdated d l]
    show sumUpdated (bumpStats acc.2 r _) + l.length = sumUpdated acc.2 + (r :: l).length
    rw [sumUpdated_bumpStats]
    simp
    omega

theorem phase3_foldl_updatedOf (d : Bool) (t : List Char) :
    ∀ (l : List SuccessResult) (acc : List FsEvent × List (List Char × ThemeStat)),
      updatedOf ((l.foldl (phase3Acc d) acc).2) t =
        updatedOf acc.2 t + l.countP (fun r => decide (r.theme = t))
  | [], acc => by simp
  | r :: l, acc => by
    rw [List.foldl_cons, phase3_foldl_updatedOf d t l]
    show updatedOf (bumpStats acc.2 r _) t + _ = _
    rw [updatedOf_bumpStats]
    rw [List.countP_cons]
    by_cases h : r.theme = t
    · simp [h]
      omega
    · have h2 : ¬ t = r.theme := fun hq => h hq.symm
      simp [h, h2]

/-- Concrete reader page used by witnesses: a conforming page. -/
def wPage : List Char :=
  "<html><div class=\"reader-content\">OLD</div><a class=\"file-link-btn\" href=\"f\">d</a></html>".data

/-- Concrete cleaned fragment used by witnesses. -/
def wBody : List Char := "NEW".data

/-- The spliced content `update_reader_page` produces for `wPage`/`wBody`. -/
def wNewContent : List Char :=
  "<html><div class=\"reader-content\">\n<!-- lo-images -->\nNEW\n</div><a class=\"file-link-btn\" href=\"f\">d</a></html>".data

/-- C1: patching is contained.  Whenever the non-dry-run
`update_reader_page` splice succeeds, the new content is the original up to
the end of the first occurrence of the container opening tag
`<div class="reader-content">`, then the inserted block, then the original
from the located closing `</div>` onward: the prefix up to `content_start`
and the suffix from `close_idx` are byte-identical to the original, and only
the region between those positions is replaced. -/
theorem C1_patch_containment (page body newContent : List Char)
    (h : patchedContent page body = some newContent) :
    ∃ cs ci oi, locateRegion page = some (cs, ci) ∧
      findSub page openTag = some oi ∧ cs = oi + openTag.length ∧
      cs ≤ ci ∧ ci ≤ page.length ∧
      newContent = page.take cs ++ insertedBlock body ++ page.drop ci ∧
      newContent.take cs = page.take cs ∧
      newContent.drop (newContent.length - (page.length - ci)) = page.drop ci := by
  simp only [patchedContent, Option.map_eq_some'] at h
  obtain ⟨⟨cs, ci⟩, hloc, hnew⟩ := h
  dsimp only at hnew
  obtain ⟨oi, hoi, hcs, hcsle, hcsci, hcib⟩ := locateRegion_bounds hloc
  have hclose : closeDivTag.length = 6 := by decide
  have hcile : ci ≤ page.length := by omega
  have hA : (page.take cs).length = cs := by
    rw [List.length_take]
    omega
  have htake : ∀ (A rest : List Char), A.length = cs → (A ++ rest).take cs = A := by
    intro A rest hA2
    rw [← hA2]
    exact List.take_left _ _
  refine ⟨cs, ci, oi, hloc, hoi, hcs, hcsci, hcile, hnew.symm, ?_, ?_⟩
  · rw [← hnew, List.append_assoc]
    exact htake _ _ hA
  · have hlen2 : newContent.length =
        cs + (insertedBlock body).length + (page.length - ci) := by
      rw [← hnew]
      simp only [List.length_append, hA, List.length_drop]
    have harith : newContent.length - (page.length - ci) =
        (page.take cs ++ insertedBlock body).length := by
      rw [List.length_append, hA]
      omega
    rw [harith, ← hnew, List.drop_left]

/-- C1 witness: the containment theorem applied at a concrete page. -/
theorem C1_patch_containment_witness :
    patchedContent wPage wBody = some wNewContent ∧
    ∃ cs ci oi, locateRegion wPage = some (cs, ci) ∧
      findSub wPage openTag = some oi ∧ cs = oi + openTag.length ∧
      cs ≤ ci ∧ ci ≤ wPage.length ∧
      wNewContent = wPage.take cs ++ insertedBlock wBody ++ wPage.drop ci ∧
      wNewContent.take cs = wPage.take cs ∧
      wNewContent.drop (wNewContent.length - (wPage.length - ci)) = wPage.drop ci :=
  ⟨by decide, C1_patch_containment wPage wBody wNewContent (by decide)⟩

/-- C2: idempotency.  A successful non-dry-run patch always embeds the
marker comment `<!-- lo-images -->` in the new content; on a non-forced run
every page containing the marker is dropped from the mapping and counted as
skipped-existing, so a second run over fully patched pages has an empty
work list; a forced run keeps every page; and phase 3 over an empty result
list performs no filesystem events at all. -/
theorem C2_idempotency :
    (∀ page body newContent, patchedContent page body = some newContent →
        containsSub newContent loMarker = true) ∧
    (∀ pages : List ((List Char × List Char) × List Char),
        (∀ p ∈ pages, containsSub p.2 loMarker = true) →
        (filterProcessed false pages).1 = [] ∧
        (filterProcessed false pages).2 = pages.length) ∧
    (∀ (pages : List ((List Char × List Char) × List Char)) p, p ∈ pages →
        containsSub p.2 loMarker = true →
        p ∉ (filterProcessed false pages).1) ∧
    (∀ pages : List ((List Char × List Char) × List Char),
        filterProcessed true pages = (pages, 0)) ∧
    (∀ dryRun, phase3 [] dryRun = ([], [])) := by
  refine ⟨?_, ?_, ?_, ?_, ?_⟩
  · intro page body newContent h
    simp only [patchedContent, Option.map_eq_some'] at h
    obtain ⟨⟨cs, ci⟩, hloc, hnew⟩ := h
    apply containsSub_of_infix
    rw [← hnew]
    have h1 : loMarker <:+: insertedBlock body :=
      ⟨['\n'], '\n' :: (body ++ ['\n']), by simp [insertedBlock]⟩
    exact h1.trans (List.infix_append _ _ _)
  · intro pages hall
    constructor
    · simp only [filterProcessed, if_false, Bool.false_eq_true]
      rw [List.filter_eq_nil_iff]
      intro p hp
      simp [hall p hp]
    · simp only [filterProcessed, if_false, Bool.false_eq_true]
      rw [List.countP_eq_length]
      intro p hp
      exact hall p hp
  · intro pages p hp hmark hmem
    simp only [filterProcessed, if_false, Bool.false_eq_true] at hmem
    rw [List.mem_filter] at hmem
    rw [hmark] at hmem
    simp at hmem
  · intro pages
    simp [filterProcessed]
  · intro dryRun
    rfl

/-- C2 witness: a patched page carries the marker, and a second-run mapping
holding only that page filters to an empty work list with one skip. -/
theorem C2_idempotency_witness :
    containsSub wNewContent loMarker = true ∧
    (filterProcessed false [((("01-letters".data, "a.doc".data)), wNewContent)]).1 = [] ∧
    (filterProcessed false [((("01-letters".data, "a.doc".data)), wNewContent)]).2 = 1 :=
  ⟨C2_idempotency.1 wPage wBody wNewContent (by decide),
   (C2_idempotency.2.1 [((("01-letters".data, "a.doc".data)), wNewContent)]
      (by decide)).1,
   (C2_idempotency.2.1 [((("01-letters".data, "a.doc".data)), wNewContent)]
      (by decide)).2⟩

/-- A success result whose target page lacks the container: phase 3 still
counts it as updated while writing nothing. -/
def wBadResult : SuccessResult :=
  { theme := "01-letters".data, source := "a.doc".data, reader := "r.html".data,
    readerSlug := "r".data, pageContent := "<p>no container</p>".data,
    beforeSize := 19, bodyHtml := "B".data,
    imageFiles := [("t/i1.png".data, "img001.png".data, 10)],
    tmpdir := some "t".data, numImages := 1 }

/-- C10: the per-theme `updated` counter is incremented for every success
result processed in phase 3 — including results whose page was aborted with
a structural-mismatch warning — so the reported updated total equals the
number of success results, which can exceed the number of pages actually
written. -/
theorem C10_updated_counts_all_successes :
    (∀ rs dryRun, sumUpdated (phase3 rs dryRun).2 = rs.length) ∧
    (∀ rs dryRun t, updatedOf (phase3 rs dryRun).2 t =
        rs.countP fun r => decide (r.theme = t)) ∧
    countWrites (phase3 [wBadResult] false).1 = 0 ∧
    sumUpdated (phase3 [wBadResult] false).2 = 1 := by
  refine ⟨?_, ?_, by decide, by decide⟩
  · intro rs d
    unfold phase3 sortByReader
    rw [phase3_foldl_sumUpdated]
    have hperm := List.perm_insertionSort
      (fun a b : SuccessResult => StrLe a.reader b.reader) rs
    rw [hperm.length_eq]
    simp [sumUpdated]
  · intro rs d t
    unfold phase3 sortByReader
    rw [phase3_foldl_updatedOf]
    have hperm := List.perm_insertionSort
      (fun a b : SuccessResult => StrLe a.reader b.reader) rs
    rw [hperm.countP_eq]
    simp [updatedOf, dictLookup_nil]

/-- A page whose download-link anchor is present but not preceded by any
closing tag between it and the container start. -/
def c8Page : List Char :=
  "<div class=\"reader-content\">X<a class=\"file-link-btn\" href=\"f\">d</a>Y</div>".data

/-- C8 counterexample: on `c8Page` the anchor is present (at 29), no
`</div>` precedes it inside the container, and the patcher still chooses a
closing tag — the one at 69, after the anchor — via the fallback.  The
claim's rule (fallback taken if and only if the anchor is absent, abort
when no closing tag can be chosen) is violated at this input. -/
theorem C8_counterexample :
    findSub c8Page openTag = some 0 ∧
    findFrom c8Page fileLinkTag 28 = some 29 ∧
    rfindIn c8Page closeDivTag 28 29 = none ∧
    locateRegion c8Page = some (28, 69) ∧ 29 < 69 := by decide

theorem locateRegion_eq_some (page : List Char) (oi : Nat)
    (h : findSub page openTag = some oi) :
    locateRegion page =
      (match findFrom page fileLinkTag (oi + openTag.length) with
       | some fli =>
         match rfindIn page closeDivTag (oi + openTag.length) fli with
         | some c => some c
         | none => findFrom page closeDivTag (oi + openTag.length)
       | none => findFrom page closeDivTag (oi + openTag.length)).map
        (fun c => (oi + openTag.length, c)) := by
  unfold locateRegion
  rw [h]
  cases h2 : findFrom page fileLinkTag (oi + openTag.length) with
  | none =>
    cases h3 : findFrom page closeDivTag (oi + openTag.length) with
    | none => simp [h2, h3]
    | some c => simp [h2, h3]
  | some fli =>
    cases h3 : rfindIn page closeDivTag (oi + openTag.length) fli with
    | none =>
      cases h4 : findFrom page closeDivTag (oi + openTag.length) with
      | none => simp [h2, h3, h4]
      | some c => simp [h2, h3, h4]
    | some c => simp [h2, h3]

/-- C8 (amended): the patcher uses the first occurrence of the container
opening tag and aborts when it is absent.  With the container found, the
chosen closing tag is the nearest `</div>` lying wholly before the
download-link anchor when the anchor is present and such a tag exists; the
fallback to the first `</div>` after the container start is taken when the
anchor is absent or when no `</div>` lies between the container start and
the anchor; and when no closing tag can be chosen the page is aborted. -/
theorem C8_splice_location (page : List Char) :
    (findSub page openTag = none → locateRegion page = none) ∧
    (∀ oi, findSub page openTag = some oi →
      (∀ a c, findFrom page fileLinkTag (oi + openTag.length) = some a →
          rfindIn page closeDivTag (oi + openTag.length) a = some c →
          locateRegion page = some (oi + openTag.length, c) ∧
          OccAt page closeDivTag c ∧ oi + openTag.length ≤ c ∧
          c + closeDivTag.length ≤ a ∧
          (∀ k, c < k → k + closeDivTag.length ≤ a → ¬ OccAt page closeDivTag k)) ∧
      (∀ a, findFrom page fileLinkTag (oi + openTag.length) = some a →
          rfindIn page closeDivTag (oi + openTag.length) a = none →
          locateRegion page =
            (findFrom page closeDivTag (oi + openTag.length)).map
              fun c => (oi + openTag.length, c)) ∧
      (findFrom page fileLinkTag (oi + openTag.length) = none →
          locateRegion page =
            (findFrom page closeDivTag (oi + openTag.length)).map
              fun c => (oi + openTag.length, c)) ∧
      (∀ c, findFrom page closeDivTag (oi + openTag.length) = some c →
          OccAt page closeDivTag c ∧ oi + openTag.length ≤ c ∧
          (∀ k, oi + openTag.length ≤ k → k < c → ¬ OccAt page closeDivTag k))) := by
  have hclosene : closeDivTag ≠ [] := by decide
  constructor
  · intro h
    unfold locateRegion
    rw [h]
  · intro oi hoi
    refine ⟨?_, ?_, ?_, ?_⟩
    · intro a c ha hc
      have hro := rfindIn_occ hclosene hc
      have hrg := rfindIn_greatest hclosene hc
      refine ⟨?_, hro.1, hro.2.1, hro.2.2.1, hrg⟩
      rw [locateRegion_eq_some page oi hoi]
      simp [ha, hc]
    · intro a ha hc
      rw [locateRegion_eq_some page oi hoi]
      simp [ha, hc]
    · intro ha
      rw [locateRegion_eq_some page oi hoi]
      simp [ha]
    · intro c hc
      have hfo := findFrom_occ hc
      exact ⟨hfo.1, hfo.2, fun k hk1 hk2 => findFrom_least hc k hk1 hk2⟩

/-- C8 witness: the amended location rule applied at the conforming page
`wPage`, where the nearest closing tag before the anchor is chosen. -/
theorem C8_splice_location_witness :
    locateRegion wPage = some (34, 37) ∧ OccAt wPage closeDivTag 37 ∧
    34 ≤ 37 ∧ 37 + closeDivTag.length ≤ 43 ∧
    (∀ k, 37 < k → k + closeDivTag.length ≤ 43 → ¬ OccAt wPage closeDivTag k) := by
  have h := ((C8_splice_location wPage).2 6 (by decide)).1 43 37 (by decide) (by decide)
  exact ⟨h.1, h.2.1, h.2.2.1, h.2.2.2.1, h.2.2.2.2⟩

/-- C9: convertible-extension filtering.  A mapped source document is in
the work list exactly when it was mapped and its lower-cased filename
extension is one of `.doc`, `.docx`, `.rtf`, `.odt`; a `.pdf` source is
never selected regardless of its mapping. -/
theorem C9_convertible_filter :
    (∀ m it, it ∈ workList m ↔ it ∈ m ∧ isConvertible it.1.2 = true) ∧
    (∀ name, strLower (pathSuffix name) = ".pdf".data → isConvertible name = false) ∧
    (∀ m it, strLower (pathSuffix it.1.2) = ".pdf".data → it ∉ workList m) := by
  have h1 : ∀ (m : List ((List Char × List Char) × List Char)) it,
      it ∈ workList m ↔ it ∈ m ∧ isConvertible it.1.2 = true := by
    intro m it
    unfold workList sortMapping
    rw [List.mem_filter]
    have hperm := List.perm_insertionSort
      (fun a b : (List Char × List Char) × List Char => keyLeB a.1 b.1 = true) m
    rw [hperm.mem_iff]
  have h2 : ∀ name, strLower (pathSuffix name) = ".pdf".data →
      isConvertible name = false := by
    intro name h
    unfold isConvertible
    rw [h]
    decide
  refine ⟨h1, h2, ?_⟩
  intro m it h hmem
  rw [h1] at hmem
  rw [h2 _ h] at hmem
  simp at hmem

/-- C9 witness: a mapped `.pdf` source is excluded from the work list. -/
theorem C9_convertible_filter_witness :
    (("01-letters".data, "x.pdf".data), "<p></p>".data) ∉
      workList [(("01-letters".data, "x.pdf".data), "<p></p>".data)] :=
  C9_convertible_filter.2.2 _ _ (by decide)

/-- C5 counterexample: a success result whose page lacks the container is
processed without performing any copy, yet its temporary directory is
removed in the phase-3 loop — deletion does not only follow a completed
copy of every pair. -/
theorem C5_counterexample :
    wBadResult.imageFiles ≠ [] ∧
    (phase3Step wBadResult false none).1 = [FsEvent.removeTree "t".data] := by
  decide

theorem runCopies_completed {imgs : List (List Char × List Char × Nat)}
    {failAt : Option Nat} (h : (runCopies imgs failAt).2 = true) :
    (runCopies imgs failAt).1 = imgs.map fun x => FsEvent.copyImage x.1 x.2.1 := by
  unfold runCopies at h ⊢
  match failAt with
  | none => rfl
  | some i =>
    by_cases hi : i < imgs.length
    · simp [hi] at h
    · simp [hi]

theorem convertOneResult_tmpdirKept (env : ConvEnv) :
    (convertOneResult env).tmpdirKept = none := by
  unfold convertOneResult
  cases hp : env.proc with
  | timeout => rfl
  | done rc stderr =>
    dsimp only
    by_cases hrc : rc = 0
    · rw [if_neg (not_not_intro hrc)]
      cases hh : env.dirFiles.filter (fun f => ".html".data.isSuffixOf f) ++
          env.dirFiles.filter (fun f => ".htm".data.isSuffixOf f) with
      | nil => rfl
      | cons loHtml tail =>
        dsimp only
        by_cases himg : (pySorted env.dirFiles).filter (fun f =>
            (f != loHtml) && imageExts.contains (strLower (pathSuffix f))) = []
        · rw [if_pos himg]
          rfl
        · rw [if_neg himg]
          cases hcf : env.cleanFails with
          | some msg => rfl
          | none => rfl
    · rw [if_pos hrc]
      rfl

/-- C5 (amended): `convert_one` removes the temporary directory exactly
when its result carries no pending image files, retaining it otherwise;
in the patch phase, when the splice succeeds and every copy completes, the
directory removal comes after the copy of every pair and the page write;
when a copy fails or is interrupted before completion the exception
propagates and the directory is not removed.  (On a dry run or a
structural-mismatch abort the directory is removed without any copy, as
the counterexample records.) -/
theorem C5_no_image_loss :
    (∀ env : ConvEnv,
      ((convertOne env).1.imageFiles = [] →
        (convertOne env).2 = [FsEvent.removeTree env.tmpdir] ∧
        (convertOne env).1.tmpdirKept = none) ∧
      ((convertOne env).1.imageFiles ≠ [] →
        (convertOne env).2 = [] ∧
        (convertOne env).1.tmpdirKept = some env.tmpdir)) ∧
    (∀ (r : SuccessResult) d new failAt, r.tmpdir = some d →
        patchedContent r.pageContent r.bodyHtml = some new →
        (runCopies r.imageFiles failAt).2 = true →
        (phase3Step r false failAt).1 =
          FsEvent.mkdirImgDir r.readerSlug ::
            ((r.imageFiles.map fun x => FsEvent.copyImage x.1 x.2.1) ++
              [FsEvent.writePage r.reader new, FsEvent.removeTree d])) ∧
    (∀ (r : SuccessResult) d new failAt, r.tmpdir = some d →
        patchedContent r.pageContent r.bodyHtml = some new →
        (runCopies r.imageFiles failAt).2 = false →
        (phase3Step r false failAt).1 =
          FsEvent.mkdirImgDir r.readerSlug :: (runCopies r.imageFiles failAt).1 ∧
        FsEvent.removeTree d ∉ (phase3Step r false failAt).1) := by
  refine ⟨?_, ?_, ?_⟩
  · intro env
    constructor
    · intro h
      unfold convertOne at h ⊢
      by_cases hc : (convertOneResult env).imageFiles ≠ []
      · rw [if_pos hc] at h
        simp only at h
        exact absurd h hc
      · rw [if_neg hc] at h ⊢
        exact ⟨rfl, convertOneResult_tmpdirKept env⟩
    · intro h
      unfold convertOne at h ⊢
      by_cases hc : (convertOneResult env).imageFiles ≠ []
      · rw [if_pos hc]
        exact ⟨rfl, rfl⟩
      · rw [if_neg hc] at h
        simp only at h
        exact absurd h hc
  · intro r d new failAt htmp hpatch hok
    unfold phase3Step updateReaderPage
    simp only [Bool.false_eq_true, if_false, hpatch]
    rw [if_pos hok]
    simp only [htmp]
    rw [runCopies_completed hok]
    simp
  · intro r d new failAt htmp hpatch hfail
    unfold phase3Step updateReaderPage
    simp only [Bool.false_eq_true, if_false, hpatch]
    rw [if_neg (by rw [hfail]; exact Bool.false_ne_true)]
    constructor
    · rfl
    · intro hmem
      simp only [List.mem_cons] at hmem
      rcases hmem with h | h
      · exact FsEvent.noConfusion h
      · cases failAt with
        | none =>
          unfold runCopies at hfail
          simp at hfail
        | some i =>
          by_cases hi : i < r.imageFiles.length
          · unfold runCopies at h
            simp only [hi, if_true] at h
            rw [List.mem_map] at h
            obtain ⟨x, _, hx⟩ := h
            exact FsEvent.noConfusion hx
          · unfold runCopies at hfail
            simp [hi] at hfail

/-- A success result against the conforming page `wPage`, with one pending
image and a retained temporary directory. -/
def wGoodResult : SuccessResult :=
  { theme := "01-letters".data, source := "b.doc".data, reader := "s.html".data,
    readerSlug := "s".data, pageContent := wPage, beforeSize := 89,
    bodyHtml := wBody,
    imageFiles := [("t2/i1.png".data, "img001.png".data, 5)],
    tmpdir := some "t2".data, numImages := 1 }

/-- C5 witness: on a successful patch, every copy precedes the page write
and the temporary-directory removal. -/
theorem C5_no_image_loss_witness :
    (phase3Step wGoodResult false none).1 =
      FsEvent.mkdirImgDir wGoodResult.readerSlug ::
        ((wGoodResult.imageFiles.map fun x => FsEvent.copyImage x.1 x.2.1) ++
          [FsEvent.writePage wGoodResult.reader wNewContent,
           FsEvent.removeTree "t2".data]) :=
  C5_no_image_loss.2.1 wGoodResult "t2".data wNewContent none
    (by decide) (by decide) (by decide)

/-- A success result with a retained temporary directory, processed by a
dry run. -/
def c6Result : SuccessResult :=
  { theme := "02-family".data, source := "c.doc".data, reader := "u.html".data,
    readerSlug := "u".data, pageContent := wPage, beforeSize := 89,
    bodyHtml := wBody,
    imageFiles := [("t3/i1.png".data, "img001.png".data, 7)],
    tmpdir := some "t3".data, numImages := 1 }

/-- C6 counterexample: a dry run is not free of filesystem mutation — the
job's temporary directory is removed in the phase-3 loop and the report
file is written at the end of the run. -/
theorem C6_counterexample :
    runEvents [c6Result] true =
      [FsEvent.removeTree "t3".data, FsEvent.writeReport] ∧
    runEvents [c6Result] true ≠ [] := by decide

theorem phase3Step_dry_events (r : SuccessResult) :
    (phase3Step r true none).1 =
      match r.tmpdir with
      | some d => [FsEvent.removeTree d]
      | none => [] := by
  unfold phase3Step updateReaderPage
  simp only [if_true]
  cases r.tmpdir with
  | some d => simp
  | none => simp

theorem phase3_foldl_events_dry :
    ∀ (l : List SuccessResult) (acc : List FsEvent × List (List Char × ThemeStat)),
      ∀ e ∈ (l.foldl (phase3Acc true) acc).1,
        e ∈ acc.1 ∨ ∃ d, e = FsEvent.removeTree d
  | [], _ => fun _ he => Or.inl he
  | r :: l, acc => by
    intro e he
    rw [List.foldl_cons] at he
    rcases phase3_foldl_events_dry l (phase3Acc true acc r) e he with h | h
    · unfold phase3Acc at h
      simp only at h
      rw [phase3Step_dry_events] at h
      cases htmp : r.tmpdir with
      | some d =>
        rw [htmp] at h
        rcases List.mem_append.mp h with h2 | h2
        · exact Or.inl h2
        · simp only [List.mem_singleton] at h2
          exact Or.inr ⟨d, h2⟩
      | none =>
        rw [htmp] at h
        simp only [List.append_nil] at h
        exact Or.inl h
    · exact Or.inr h

/-- C6 (amended): in dry-run mode `update_reader_page` performs no
filesystem event and returns the pair `(before, before + byte length of
the cleaned fragment + total size of the image files)`; the dry-run
phase-3 loop performs no page write, image copy or directory creation —
only removals of job temporary directories — and the run still writes the
report file. -/
theorem C6_dry_run_estimate :
    (∀ r failAt, updateReaderPage r true failAt =
      ([], some (r.beforeSize,
        r.beforeSize + utf8Len r.bodyHtml + sumImgSizes r.imageFiles))) ∧
    (∀ rs e, e ∈ runEvents rs true →
      (∃ d, e = FsEvent.removeTree d) ∨ e = FsEvent.writeReport) ∧
    (∀ rs, FsEvent.writeReport ∈ runEvents rs true) ∧
    (∀ rs, countWrites (runEvents rs true) = 0) := by
  have h2 : ∀ rs e, e ∈ runEvents rs true →
      (∃ d, e = FsEvent.removeTree d) ∨ e = FsEvent.writeReport := by
    intro rs e he
    unfold runEvents mainTailEvents at he
    rcases List.mem_append.mp he with h | h
    · unfold phase3 at h
      rcases phase3_foldl_events_dry (sortByReader rs) ([], []) e h with h3 | h3
      · simp at h3
      · exact Or.inl h3
    · simp only [List.mem_singleton] at h
      exact Or.inr h
  refine ⟨fun r failAt => rfl, h2, ?_, ?_⟩
  · intro rs
    unfold runEvents mainTailEvents
    exact List.mem_append.mpr (Or.inr (List.mem_singleton.mpr rfl))
  · intro rs
    unfold countWrites
    rw [List.countP_eq_zero]
    intro e he
    rcases h2 rs e he with ⟨d, rfl⟩ | rfl
    · simp
    · simp

/-- C6 witness: the dry-run event classification applied to a concrete
run. -/
theorem C6_dry_run_estimate_witness :
    (∃ d, FsEvent.removeTree "t3".data = FsEvent.removeTree d) ∨
      FsEvent.removeTree "t3".data = FsEvent.writeReport :=
  C6_dry_run_estimate.2.1 [c6Result] (FsEvent.removeTree "t3".data) (by decide)

theorem convertOne_fields (env : ConvEnv) :
    (convertOne env).1.error = (convertOneResult env).error ∧
    (convertOne env).1.skipped = (convertOneResult env).skipped ∧
    (convertOne env).1.imageFiles = (convertOneResult env).imageFiles := by
  unfold convertOne
  by_cases hc : (convertOneResult env).imageFiles ≠ []
  · rw [if_pos hc]
    exact ⟨rfl, rfl, rfl⟩
  · rw [if_neg hc]
    exact ⟨rfl, rfl, rfl⟩

theorem convertOneResult_cases (env : ConvEnv) :
    ((convertOneResult env).error.isSome = true ∧
      (convertOneResult env).skipped = false ∧
      (convertOneResult env).imageFiles = []) ∨
    ((convertOneResult env).error = none ∧
      (convertOneResult env).skipped = true ∧
      (convertOneResult env).imageFiles = []) ∨
    ((convertOneResult env).error = none ∧
      (convertOneResult env).skipped = false ∧
      (convertOneResult env).imageFiles ≠ []) := by
  unfold convertOneResult
  cases hp : env.proc with
  | timeout => exact Or.inl ⟨rfl, rfl, rfl⟩
  | done rc stderr =>
    dsimp only
    by_cases hrc : rc = 0
    · rw [if_neg (not_not_intro hrc)]
      cases hh : env.dirFiles.filter (fun f => ".html".data.isSuffixOf f) ++
          env.dirFiles.filter (fun f => ".htm".data.isSuffixOf f) with
      | nil => exact Or.inl ⟨rfl, rfl, rfl⟩
      | cons loHtml tail =>
        dsimp only
        by_cases himg : (pySorted env.dirFiles).filter (fun f =>
            (f != loHtml) && imageExts.contains (strLower (pathSuffix f))) = []
        · rw [if_pos himg]
          exact Or.inr (Or.inl ⟨rfl, rfl, rfl⟩)
        · rw [if_neg himg]
          cases hcf : env.cleanFails with
          | some msg => exact Or.inl ⟨rfl, rfl, rfl⟩
          | none =>
            refine Or.inr (Or.inr ⟨rfl, rfl, ?_⟩)
            simp only [ne_eq, List.map_eq_nil_iff]
            exact himg
    · rw [if_pos hrc]
      exact Or.inl ⟨rfl, rfl, rfl⟩

/-- C7: result classification.  Every `convert_one` result is exactly one
of error, skipped, or success-with-images; an HTML output with zero images
is classified skipped with the error unset; a non-zero converter exit code
yields the error message carrying at most a 200-character prefix of the
diagnostic output; a timeout yields an error; and an exception during
extraction or cleaning yields an error carrying its message. -/
theorem C7_result_classification (env : ConvEnv) :
    ((convertOne env).1.error.isSome = true ∨ (convertOne env).1.skipped = true ∨
      (convertOne env).1.imageFiles ≠ []) ∧
    ¬((convertOne env).1.error.isSome = true ∧ (convertOne env).1.skipped = true) ∧
    ¬((convertOne env).1.error.isSome = true ∧ (convertOne env).1.imageFiles ≠ []) ∧
    ¬((convertOne env).1.skipped = true ∧ (convertOne env).1.imageFiles ≠ []) ∧
    (env.proc = ProcOutcome.timeout →
      (convertOne env).1.error = some "Timeout after 60s".data) ∧
    (∀ rc stderr, env.proc = ProcOutcome.done rc stderr → rc ≠ 0 →
      (convertOne env).1.error = some ("LO exit code ".data ++ (toString rc).data ++
        ": ".data ++ take200 stderr) ∧ (take200 stderr).length ≤ 200) ∧
    (∀ rc stderr loHtml tail, env.proc = ProcOutcome.done rc stderr → rc = 0 →
      env.dirFiles.filter (fun f => ".html".data.isSuffixOf f) ++
        env.dirFiles.filter (fun f => ".htm".data.isSuffixOf f) = loHtml :: tail →
      (pySorted env.dirFiles).filter (fun f =>
        (f != loHtml) && imageExts.contains (strLower (pathSuffix f))) = [] →
      (convertOne env).1.skipped = true ∧ (convertOne env).1.error = none) ∧
    (∀ rc stderr loHtml tail msg, env.proc = ProcOutcome.done rc stderr → rc = 0 →
      env.dirFiles.filter (fun f => ".html".data.isSuffixOf f) ++
        env.dirFiles.filter (fun f => ".htm".data.isSuffixOf f) = loHtml :: tail →
      (pySorted env.dirFiles).filter (fun f =>
        (f != loHtml) && imageExts.contains (strLower (pathSuffix f))) ≠ [] →
      env.cleanFails = some msg →
      (convertOne env).1.error = some msg) := by
  obtain ⟨hfe, hfs, hfi⟩ := convertOne_fields env
  refine ⟨?_, ?_, ?_, ?_, ?_, ?_, ?_, ?_⟩
  · rcases convertOneResult_cases env with ⟨h1, h2, h3⟩ | ⟨h1, h2, h3⟩ | ⟨h1, h2, h3⟩
    · exact Or.inl (by rw [hfe]; exact h1)
    · exact Or.inr (Or.inl (by rw [hfs, h2]))
    · exact Or.inr (Or.inr (by rw [hfi]; exact h3))
  · rintro ⟨hx, hy⟩
    rw [hfe] at hx
    rw [hfs] at hy
    rcases convertOneResult_cases env with ⟨h1, h2, h3⟩ | ⟨h1, h2, h3⟩ | ⟨h1, h2, h3⟩
    · rw [h2] at hy
      exact Bool.false_ne_true hy
    · rw [h1] at hx
      simp at hx
    · rw [h2] at hy
      exact Bool.false_ne_true hy
  · rintro ⟨hx, hy⟩
    rw [hfe] at hx
    rw [hfi] at hy
    rcases convertOneResult_cases env with ⟨h1, h2, h3⟩ | ⟨h1, h2, h3⟩ | ⟨h1, h2, h3⟩
    · exact hy h3
    · rw [h1] at hx
      simp at hx
    · rw [h1] at hx
      simp at hx
  · rintro ⟨hx, hy⟩
    rw [hfs] at hx
    rw [hfi] at hy
    rcases convertOneResult_cases env with ⟨h1, h2, h3⟩ | ⟨h1, h2, h3⟩ | ⟨h1, h2, h3⟩
    · rw [h2] at hx
      exact Bool.false_ne_true hx
    · exact hy h3
    · rw [h2] at hx
      exact Bool.false_ne_true hx
  · intro hp
    rw [hfe]
    unfold convertOneResult
    simp only [hp]
  · intro rc stderr hp hrc
    constructor
    · rw [hfe]
      unfold convertOneResult
      simp only [hp]
      rw [if_pos hrc]
    · rw [take200, List.length_take]
      exact min_le_left _ _
  · intro rc stderr loHtml tail hp hrc hh himg
    constructor
    · rw [hfs]
      unfold convertOneResult
      simp only [hp]
      rw [if_neg (not_not_intro hrc)]
      simp only [hh]
      rw [if_pos himg]
    · rw [hfe]
      unfold convertOneResult
      simp only [hp]
      rw [if_neg (not_not_intro hrc)]
      simp only [hh]
      rw [if_pos himg]
      rfl
  · intro rc stderr loHtml tail msg hp hrc hh himg hcf
    rw [hfe]
    unfold convertOneResult
    simp only [hp]
    rw [if_neg (not_not_intro hrc)]
    simp only [hh]
    rw [if_neg himg]
    simp only [hcf]

/-- A conversion environment whose converter produced HTML but no images. -/
def wSkipEnv : ConvEnv :=
  { theme := "01-letters".data, source := "d.doc".data, reader := "v.html".data,
    readerSlug := "v".data, tmpdir := "t4".data,
    dirFiles := ["d.html".data],
    bodyHtml := "<p>x</p>".data,
    proc := ProcOutcome.done 0 [],
    cleanFails := none }

/-- C7 witness: a job with HTML output and zero images is classified
skipped with the error unset. -/
theorem C7_result_classification_witness :
    (convertOne wSkipEnv).1.skipped = true ∧ (convertOne wSkipEnv).1.error = none :=
  (C7_result_classification wSkipEnv).2.2.2.2.2.2.1 0 [] "d.html".data []
    rfl rfl (by decide) (by decide)

/-- C3: deterministic, order-independent renaming.  The rename map depends
only on the set of original names (it is invariant under permutation of
the enumeration), its keys are the lexicographically sorted originals,
every entry carries the sequential name `img{i:03d}` with the original's
extension (`.png` when none), and on the example originals
`{picture2.png, picture1.jpg}` the map and the rewritten fragment
references come out as the claim states. -/
theorem C3_rename_map :
    (∀ xs ys, xs.Perm ys → imgMapOf xs = imgMapOf ys) ∧
    (∀ xs, (imgMapOf xs).map Prod.fst = pySorted xs) ∧
    (∀ xs p, p ∈ imgMapOf xs → ∃ i, i < xs.length ∧ p.2 = seqImgName (i + 1) p.1) ∧
    imgMapOf ["picture2.png".data, "picture1.jpg".data] =
      [("picture1.jpg".data, "img001.jpg".data),
       ("picture2.png".data, "img002.png".data)] ∧
    (clean_lo_html
      "<p><img src=\"picture1.jpg\"> and <img src=\"picture2.png\"></p>".data
      ["picture2.png".data, "picture1.jpg".data] "letter".data).1 =
      "<p><img src=\"img/letter/img001.jpg\"> and <img src=\"img/letter/img002.png\"></p>".data := by
  refine ⟨?_, ?_, ?_, by decide, by decide⟩
  · intro xs ys hperm
    have hsort : List.insertionSort StrLe xs = List.insertionSort StrLe ys :=
      @List.eq_of_perm_of_sorted (List Char) StrLe _ _ _
        ((List.perm_insertionSort StrLe xs).trans
          (hperm.trans (List.perm_insertionSort StrLe ys).symm))
        (List.sorted_insertionSort StrLe xs)
        (List.sorted_insertionSort StrLe ys)
    unfold imgMapOf pySorted
    rw [hsort]
  · intro xs
    unfold imgMapOf
    rw [List.map_map]
    exact List.enum_map_snd _
  · intro xs p hp
    unfold imgMapOf at hp
    rw [List.mem_map] at hp
    obtain ⟨q, hq, hqp⟩ := hp
    refine ⟨q.1, ?_, ?_⟩
    · have hget := List.mem_enum_iff_get?.mp hq
      have hlt : q.1 < (pySorted xs).length := by
        rcases List.get?_eq_some.mp hget with ⟨h, _⟩
        exact h
      have hlen : (pySorted xs).length = xs.length :=
        (List.perm_insertionSort StrLe xs).length_eq
      omega
    · rw [← hqp]

/-- C3 witness: the permutation invariance applied at the two enumeration
orders of the example originals. -/
theorem C3_rename_map_witness :
    imgMapOf ["picture2.png".data, "picture1.jpg".data] =
      imgMapOf ["picture1.jpg".data, "picture2.png".data] :=
  C3_rename_map.1 _ _ (List.Perm.swap _ _ _)

/-- C4 counterexample: an `<img>` whose `width` attribute comes first.  The
strip pattern requires preceding whitespace, and the captured attribute
text starts at the attribute name, so the leading `width` survives while
the `src` is still rewritten. -/
theorem C4_counterexample :
    scanRw (matchImgTag (imgMapOf ["picture1.jpg".data]) "letter".data)
        "<img width=\"5\" src=\"picture1.jpg\">".data =
      "<img width=\"5\" src=\"img/letter/img001.jpg\">".data ∧
    containsSub
      (scanRw (matchImgTag (imgMapOf ["picture1.jpg".data]) "letter".data)
        "<img width=\"5\" src=\"picture1.jpg\">".data)
      "width=\"5\"".data = true := by decide

/-- One attribute of an `<img>` tag rendered as `key="value"`. -/
def renderAttrOne (a : List Char × List Char) : List Char :=
  a.1 ++ '=' :: '"' :: (a.2 ++ ['"'])

/-- The space-prefixed rendering of the attributes after the first. -/
def renderTail : List (List Char × List Char) → List Char
  | [] => []
  | a :: rest => ' ' :: (renderAttrOne a ++ renderTail rest)

/-- The attribute text captured by the tag regex: attributes joined by
single spaces, the first with no leading whitespace. -/
def renderAttrs : List (List Char × List Char) → List Char
  | [] => []
  | a :: rest => renderAttrOne a ++ renderTail rest

/-- Attribute names occurring in LibreOffice `<img>` markup. -/
def imgAttrKeys : List (List Char) :=
  ["src".data, "width".data, "height".data, "border".data, "name".data,
   "alt".data, "style".data, "align".data, "hspace".data, "vspace".data]

/-- An attribute value free of quotes, equals signs and whitespace. -/
def goodValue (v : List Char) : Bool :=
  v.all fun c => !(c = '"' || c = '=' || isPySpace c)

/-- Well-formedness of a rendered attribute list. -/
def GoodAttrs (attrs : List (List Char × List Char)) : Prop :=
  ∀ p ∈ attrs, p.1 ∈ imgAttrKeys ∧ goodValue p.2 = true

/-- The value of the first `src` attribute, which line 135 resolves. -/
def firstSrcVal (attrs : List (List Char × List Char)) : Option (List Char) :=
  (attrs.find? fun p => p.1 == "src".data).map fun p => p.2

/-- The attribute-level description of the strip of line 148 as the code
actually behaves: the first attribute always stays (no whitespace precedes
it in the captured text), later presentational attributes are dropped. -/
def stripLaterPresentational : List (List Char × List Char) →
    List (List Char × List Char)
  | [] => []
  | a :: rest => a :: rest.filter fun p => !(attrNames.contains p.1)

/-- The attribute-level description of the `src` replacement of line 150:
every `src` attribute's value becomes the new reference. -/
def substSrc (newSrc : List Char) (attrs : List (List Char × List Char)) :
    List (List Char × List Char) :=
  attrs.map fun p => if p.1 = "src".data then (p.1, newSrc) else p

/-- A mismatch between `pat` and `t` within their common length, which no
continuation of `t` can repair. -/
def incompatible : List Char → List Char → Bool
  | a :: p, b :: t => a != b || incompatible p t
  | _, _ => false

theorem isPrefixOf_false_of_incompatible :
    ∀ {pat t : List Char}, incompatible pat t = true →
      ∀ ext, pat.isPrefixOf (t ++ ext) = false
  | a :: p, b :: t, h, ext => by
    rw [incompatible] at h
    rw [Bool.or_eq_true] at h
    rw [List.cons_append]
    show (a == b && p.isPrefixOf (t ++ ext)) = false
    rcases h with h | h
    · rw [bne_iff_ne] at h
      simp [h]
    · rw [isPrefixOf_false_of_incompatible h ext]
      simp
  | [], _, h, _ => by rw [incompatible.eq_def] at h; simp at h
  | _ :: _, [], h, _ => by rw [incompatible.eq_def] at h; simp at h

/-- Within the key part of a rendered attribute whose key is not `src`,
the pattern `src="` cannot start anywhere. -/
theorem key_region_no_src :
    ∀ k ∈ imgAttrKeys, k ≠ "src".data →
      ∀ o, o < k.length + 2 →
        incompatible srcPat ((k ++ ['=', '"']).drop o) = true := by
  decide

theorem incompatible_value {v2 : List Char} (hne : v2 ≠ [])
    (hsub : ∀ c ∈ v2, c ≠ '=') :
    incompatible srcPat (v2 ++ ['"']) = true := by
  match v2, hne with
  | [a], _ => simp [srcPat, incompatible]
  | [a, b], _ => simp [srcPat, incompatible]
  | [a, b, c], _ => simp [srcPat, incompatible]
  | a :: b :: c :: d :: t, _ =>
    have hd : ('=' != d) = true := by
      rw [bne_iff_ne]
      intro hq
      exact hsub d (by simp) hq.symm
    simp [srcPat, incompatible, hd]

theorem eq_drop_of_append {p1 p2 R : List Char} (h : R = p1 ++ p2) :
    p2 = R.drop p1.length := by
  subst h
  rw [List.drop_left]

/-- The pattern `src="` cannot start at any position of a rendered
attribute whose key is not `src`, whatever follows the attribute. -/
theorem srcPat_no_occ {k v : List Char} (hk : k ∈ imgAttrKeys)
    (hne : k ≠ "src".data) (hv : goodValue v = true) (rest p1 p2 : List Char)
    (hsplit : renderAttrOne (k, v) = p1 ++ p2) (hp2 : p2 ≠ []) :
    srcPat.isPrefixOf (p2 ++ rest) = false := by
  have hdrop : p2 = (renderAttrOne (k, v)).drop p1.length := eq_drop_of_append hsplit
  set o := p1.length with ho
  have hR : renderAttrOne (k, v) = (k ++ ['=', '"']) ++ (v ++ ['"']) := by
    simp [renderAttrOne]
  by_cases h1 : o < k.length + 2
  · have hp2eq : p2 = (k ++ ['=', '"']).drop o ++ (v ++ ['"']) := by
      rw [hdrop, hR]
      rw [List.drop_append_of_le_length (by simp; omega)]
    rw [hp2eq, List.append_assoc]
    exact isPrefixOf_false_of_incompatible (key_region_no_src k hk hne o h1) _
  · by_cases h2 : o < k.length + 2 + v.length
    · have hj : o - (k.length + 2) < v.length := by omega
      have hoeq : o = (k ++ ['=', '"']).length + (o - (k.length + 2)) := by
        simp
        omega
      have hp2eq : p2 = v.drop (o - (k.length + 2)) ++ ['"'] := by
        rw [hdrop, hR, hoeq, List.drop_append]
        rw [List.drop_append_of_le_length (by omega)]
        congr 2
        simp
      have hvne : v.drop (o - (k.length + 2)) ≠ [] := by
        intro hq
        have := congrArg List.length hq
        simp only [List.length_drop, List.length_nil] at this
        omega
      have hsub : ∀ c ∈ v.drop (o - (k.length + 2)), c ≠ '=' := by
        intro c hc hq
        have hcv : c ∈ v := List.drop_subset _ _ hc
        have := (List.all_eq_true.mp hv) c hcv
        subst hq
        simp at this
      rw [hp2eq]
      exact isPrefixOf_false_of_incompatible (incompatible_value hvne hsub) _
    · have hlenR : (renderAttrOne (k, v)).length = k.length + 3 + v.length := by
        simp [renderAttrOne]
        omega
      have ho2 : o = k.length + 2 + v.length := by
        by_contra h3
        have hge : (renderAttrOne (k, v)).length ≤ o := by omega
        have : (renderAttrOne (k, v)).drop o = [] := List.drop_eq_nil_of_le hge
        exact hp2 (hdrop.trans this)
      have hoeq : o = (k ++ ['=', '"']).length + v.length := by
        simp
        omega
      have hp2eq : p2 = ['"'] := by
        rw [hdrop, hR, hoeq, List.drop_append]
        rw [List.drop_append_of_le_length (le_refl _)]
        simp
      rw [hp2eq]
      exact isPrefixOf_false_of_incompatible (by decide) rest

theorem takeWhile_append_all {p : Char → Bool} :
    ∀ v rest : List Char, (∀ c ∈ v, p c = true) →
      (v ++ rest).takeWhile p = v ++ rest.takeWhile p
  | [], rest, _ => by simp
  | c :: v, rest, h => by
    rw [List.cons_append, List.takeWhile_cons]
    simp only [h c (List.mem_cons_self c v), if_true]
    rw [takeWhile_append_all v rest fun d hd => h d (List.mem_cons_of_mem c hd)]
    rfl

theorem takeWhile_value (v r2 : List Char) (hv : ∀ x ∈ v, x ≠ '"') :
    (v ++ '"' :: r2).takeWhile (· ≠ '"') = v := by
  rw [takeWhile_append_all v ('"' :: r2) fun c hc => by simpa using hv c hc]
  simp [List.takeWhile_cons]

theorem goodValue_props {v : List Char} (hv : goodValue v = true) :
    ∀ c ∈ v, ¬(c = '"') ∧ ¬(c = '=') ∧ isPySpace c = false := by
  intro c hc
  have hall := List.all_eq_true.mp hv c hc
  simp only [Bool.not_eq_true', Bool.or_eq_false_iff, decide_eq_false_iff_not] at hall
  exact ⟨hall.1.1, hall.1.2, hall.2⟩

theorem srcPat_eq : srcPat = ['s', 'r', 'c', '=', '"'] := by decide

theorem searchSrcVal_cons_neg {c : Char} {t : List Char}
    (h : srcPat.isPrefixOf (c :: t) = false) :
    searchSrcVal (c :: t) = searchSrcVal t := by
  rw [searchSrcVal]
  simp [h]

theorem searchSrcVal_cons_hit {c : Char} {t v r2 : List Char}
    (hpre : srcPat.isPrefixOf (c :: t) = true)
    (hq : (c :: t).drop srcPat.length = v ++ '"' :: r2)
    (hv : ∀ x ∈ v, x ≠ '"') :
    searchSrcVal (c :: t) = some v := by
  have htake : (v ++ '"' :: r2).takeWhile (· ≠ '"') = v := takeWhile_value v r2 hv
  have hdrop : (v ++ '"' :: r2).drop v.length = '"' :: r2 := List.drop_left v _
  rw [searchSrcVal]
  simp only [hpre, if_true, hq, htake, hdrop]

theorem searchSrcVal_skip :
    ∀ p rest : List Char,
      (∀ p1 p2, p = p1 ++ p2 → p2 ≠ [] → srcPat.isPrefixOf (p2 ++ rest) = false) →
      searchSrcVal (p ++ rest) = searchSrcVal rest
  | [], _, _ => by simp
  | c :: p, rest, h => by
    have h0 : srcPat.isPrefixOf (c :: (p ++ rest)) = false := by
      have := h [] (c :: p) rfl (by simp)
      simpa using this
    rw [List.cons_append, searchSrcVal_cons_neg h0]
    exact searchSrcVal_skip p rest fun p1 p2 hp hne => h (c :: p1) p2 (by simp [hp]) hne

theorem searchSrcVal_one (a : List Char × List Char) (rest : List Char)
    (hk : a.1 ∈ imgAttrKeys) (hv : goodValue a.2 = true) :
    searchSrcVal (renderAttrOne a ++ rest) =
      if a.1 = "src".data then some a.2 else searchSrcVal rest := by
  obtain ⟨k, v⟩ := a
  by_cases hsrc : k = "src".data
  · subst hsrc
    rw [if_pos rfl]
    have hform : renderAttrOne ("src".data, v) ++ rest =
        's' :: 'r' :: 'c' :: '=' :: '"' :: (v ++ '"' :: rest) := by
      simp [renderAttrOne]
    rw [hform]
    exact searchSrcVal_cons_hit (by simp [srcPat_eq, List.isPrefixOf])
      (by rw [srcPat_eq]; rfl) fun x hx => (goodValue_props hv x hx).1
  · rw [if_neg hsrc]
    exact searchSrcVal_skip (renderAttrOne (k, v)) rest fun p1 p2 hp hne =>
      srcPat_no_occ hk hsrc hv rest p1 p2 hp hne

theorem searchSrcVal_rtail :
    ∀ attrs, GoodAttrs attrs → searchSrcVal (renderTail attrs) = firstSrcVal attrs
  | [], _ => rfl
  | a :: rest, h => by
    have hk := (h a (List.mem_cons_self a rest)).1
    have hv := (h a (List.mem_cons_self a rest)).2
    rw [renderTail, searchSrcVal_cons_neg (by simp [srcPat_eq, List.isPrefixOf])]
    rw [searchSrcVal_one a (renderTail rest) hk hv]
    by_cases hs : a.1 = "src".data
    · rw [if_pos hs]
      simp [firstSrcVal, List.find?_cons, hs]
    · rw [if_neg hs]
      rw [searchSrcVal_rtail rest fun p hp => h p (List.mem_cons_of_mem a hp)]
      simp [firstSrcVal, List.find?_cons, hs]

theorem searchSrcVal_attrs (attrs : List (List Char × List Char))
    (h : GoodAttrs attrs) :
    searchSrcVal (renderAttrs attrs) = firstSrcVal attrs := by
  match attrs with
  | [] => rfl
  | a :: rest =>
    have hk := (h a (List.mem_cons_self a rest)).1
    have hv := (h a (List.mem_cons_self a rest)).2
    rw [renderAttrs, searchSrcVal_one a (renderTail rest) hk hv]
    by_cases hs : a.1 = "src".data
    · rw [if_pos hs]
      simp [firstSrcVal, List.find?_cons, hs]
    · rw [if_neg hs]
      rw [searchSrcVal_rtail rest fun p hp => h p (List.mem_cons_of_mem a hp)]
      simp [firstSrcVal, List.find?_cons, hs]

theorem matchSrcAttr_not_pre {newSrc s : List Char}
    (h : srcPat.isPrefixOf s = false) : matchSrcAttr newSrc s = none := by
  simp [matchSrcAttr, h]

theorem matchSrcAttr_src (newSrc v rest : List Char) (hv : goodValue v = true) :
    matchSrcAttr newSrc (renderAttrOne ("src".data, v) ++ rest) =
      some (srcPat.length + v.length + 1, srcPat ++ newSrc ++ ['"']) := by
  have hform : renderAttrOne ("src".data, v) ++ rest =
      's' :: 'r' :: 'c' :: '=' :: '"' :: (v ++ '"' :: rest) := by
    simp [renderAttrOne]
  have hpre : srcPat.isPrefixOf
      ('s' :: 'r' :: 'c' :: '=' :: '"' :: (v ++ '"' :: rest)) = true := by
    simp [srcPat_eq, List.isPrefixOf]
  have hq : ('s' :: 'r' :: 'c' :: '=' :: '"' :: (v ++ '"' :: rest)).drop
      srcPat.length = v ++ '"' :: rest := by
    rw [srcPat_eq]
    rfl
  have htake : (v ++ '"' :: rest).takeWhile (· ≠ '"') = v :=
    takeWhile_value v rest fun x hx => (goodValue_props hv x hx).1
  have hdrop : (v ++ '"' :: rest).drop v.length = '"' :: rest := List.drop_left v _
  rw [hform]
  simp only [matchSrcAttr, hpre, if_true, hq, htake, hdrop]

theorem scanRw_head_some {f : List Char → Option (Nat × List Char)}
    {s out : List Char} {n : Nat} (hs : s ≠ []) (h : f s = some (n, out))
    (hn : 0 < n) : scanRw f s = out ++ scanRw f (s.drop n) := by
  match s, hs with
  | c :: t, _ => exact scanRw_cons_some h hn

theorem scanRw_subst_tail (newSrc : List Char) :
    ∀ attrs, GoodAttrs attrs →
      scanRw (matchSrcAttr newSrc) (renderTail attrs) =
        renderTail (substSrc newSrc attrs)
  | [], _ => rfl
  | (k, v) :: rest, h => by
    have hk := (h (k, v) (List.mem_cons_self _ _)).1
    have hv := (h (k, v) (List.mem_cons_self _ _)).2
    have htail : GoodAttrs rest := fun p hp => h p (List.mem_cons_of_mem _ hp)
    rw [renderTail]
    rw [scanRw_cons_none (matchSrcAttr_not_pre (by simp [srcPat_eq, List.isPrefixOf]))]
    by_cases hs : k = "src".data
    · subst hs
      rw [scanRw_head_some (by simp [renderAttrOne])
        (matchSrcAttr_src newSrc v _ hv) (by simp [srcPat_eq])]
      have hd : (renderAttrOne ("src".data, v) ++ renderTail rest).drop
          (srcPat.length + v.length + 1) = renderTail rest := by
        have hn : srcPat.length + v.length + 1 =
            (renderAttrOne ("src".data, v)).length := by
          simp [renderAttrOne, srcPat_eq]
          omega
        rw [hn, List.drop_left]
      rw [hd, scanRw_subst_tail newSrc rest htail]
      simp [substSrc, renderTail, renderAttrOne, srcPat_eq]
    · rw [scanRw_append_none _ (renderAttrOne (k, v)) (renderTail rest)
        fun p1 p2 hp hne => matchSrcAttr_not_pre (srcPat_no_occ hk hs hv _ p1 p2 hp hne)]
      rw [scanRw_subst_tail newSrc rest htail]
      simp [substSrc, renderTail, hs]

theorem scanRw_subst_attrs (newSrc : List Char) (attrs : List (List Char × List Char))
    (h : GoodAttrs attrs) :
    scanRw (matchSrcAttr newSrc) (renderAttrs attrs) =
      renderAttrs (substSrc newSrc attrs) := by
  match attrs with
  | [] => rfl
  | (k, v) :: rest =>
    have hk := (h (k, v) (List.mem_cons_self _ _)).1
    have hv := (h (k, v) (List.mem_cons_self _ _)).2
    have htail : GoodAttrs rest := fun p hp => h p (List.mem_cons_of_mem _ hp)
    rw [renderAttrs]
    by_cases hs : k = "src".data
    · subst hs
      rw [scanRw_head_some (by simp [renderAttrOne])
        (matchSrcAttr_src newSrc v _ hv) (by simp [srcPat_eq])]
      have hd : (renderAttrOne ("src".data, v) ++ renderTail rest).drop
          (srcPat.length + v.length + 1) = renderTail rest := by
        have hn : srcPat.length + v.length + 1 =
            (renderAttrOne ("src".data, v)).length := by
          simp [renderAttrOne, srcPat_eq]
          omega
        rw [hn, List.drop_left]
      rw [hd, scanRw_subst_tail newSrc rest htail]
      simp [substSrc, renderAttrs, renderTail, renderAttrOne, srcPat_eq]
    · rw [scanRw_append_none _ (renderAttrOne (k, v)) (renderTail rest)
        fun p1 p2 hp hne => matchSrcAttr_not_pre (srcPat_no_occ hk hs hv _ p1 p2 hp hne)]
      rw [scanRw_subst_tail newSrc rest htail]
      simp [substSrc, renderAttrs, renderTail, hs]

theorem attrNames_sub : ∀ x ∈ attrNames, x ∈ imgAttrKeys := by decide

theorem imgKey_facts : ∀ k ∈ imgAttrKeys, k ≠ [] ∧ ∀ c ∈ k, isPySpace c = false := by
  decide

theorem attrName_incompat :
    ∀ x ∈ attrNames, ∀ k ∈ imgAttrKeys, x ≠ k →
      incompatible (x ++ "=\"".data) k = true := by decide

theorem takeWhile_space_key {k : List Char} (hk : k ∈ imgAttrKeys) (X : List Char) :
    (' ' :: (k ++ X)).takeWhile isPySpace = [' '] := by
  obtain ⟨hne, hns⟩ := imgKey_facts k hk
  obtain ⟨c, kt, hshape⟩ := List.exists_cons_of_ne_nil hne
  subst hshape
  rw [List.cons_append, List.takeWhile_cons, List.takeWhile_cons]
  simp [hns c (List.mem_cons_self _ _), show isPySpace ' ' = true by decide]

theorem renderAttrOne_nonspace {k v : List Char} (hk : k ∈ imgAttrKeys)
    (hv : goodValue v = true) :
    ∀ c ∈ renderAttrOne (k, v), isPySpace c = false := by
  intro c hc
  simp [renderAttrOne] at hc
  rcases hc with hc | hc | hc | hc | hc
  · exact (imgKey_facts k hk).2 c hc
  · subst hc
    decide
  · subst hc
    decide
  · exact (goodValue_props hv c hc).2.2
  · subst hc
    decide

theorem matchAttrStrip_nonspace {c : Char} {t : List Char}
    (h : isPySpace c = false) : matchAttrStrip (c :: t) = none := by
  simp [matchAttrStrip, List.takeWhile_cons, h]

theorem scanRw_strip_block {k v : List Char} (hk : k ∈ imgAttrKeys)
    (hv : goodValue v = true) (T : List Char) :
    scanRw matchAttrStrip (renderAttrOne (k, v) ++ T) =
      renderAttrOne (k, v) ++ scanRw matchAttrStrip T := by
  apply scanRw_append_none
  intro p1 p2 hp hne
  match p2, hne with
  | c :: t, _ =>
    rw [List.cons_append]
    apply matchAttrStrip_nonspace
    apply renderAttrOne_nonspace hk hv
    rw [hp]
    simp

theorem attrNames_find?_self {nm : List Char} (hnm : nm ∈ attrNames) (R : List Char) :
    (attrNames.find? fun a => (a ++ "=\"".data).isPrefixOf (nm ++ '=' :: '"' :: R)) =
      some nm := by
  have hdq : "=\"".data = ['=', '"'] := by decide
  have hpre : (nm ++ "=\"".data).isPrefixOf (nm ++ '=' :: '"' :: R) = true := by
    rw [List.isPrefixOf_iff_prefix]
    have h1 : nm ++ '=' :: '"' :: R = (nm ++ "=\"".data) ++ R := by
      simp [hdq]
    rw [h1]
    exact List.prefix_append _ _
  have hother : ∀ x ∈ attrNames, x ≠ nm →
      ((x ++ "=\"".data).isPrefixOf (nm ++ '=' :: '"' :: R)) = false := by
    intro x hx hne
    exact isPrefixOf_false_of_incompatible
      (attrName_incompat x hx nm (attrNames_sub nm hnm) hne) ('=' :: '"' :: R)
  have hlist : attrNames =
      [['w', 'i', 'd', 't', 'h'], ['h', 'e', 'i', 'g', 'h', 't'],
       ['b', 'o', 'r', 'd', 'e', 'r'], ['n', 'a', 'm', 'e']] := by decide
  simp only [hdq] at hpre hother
  rw [hlist] at hnm
  simp only [List.mem_cons, List.not_mem_nil, or_false] at hnm
  rcases hnm with rfl | rfl | rfl | rfl
  · rw [hlist]
    simp only [List.find?, hdq, hpre]
  · rw [hlist]
    simp only [List.find?, hdq, hpre,
      hother ['w', 'i', 'd', 't', 'h'] (by decide) (by decide)]
  · rw [hlist]
    simp only [List.find?, hdq, hpre,
      hother ['w', 'i', 'd', 't', 'h'] (by decide) (by decide),
      hother ['h', 'e', 'i', 'g', 'h', 't'] (by decide) (by decide)]
  · rw [hlist]
    simp only [List.find?, hdq, hpre,
      hother ['w', 'i', 'd', 't', 'h'] (by decide) (by decide),
      hother ['h', 'e', 'i', 'g', 'h', 't'] (by decide) (by decide),
      hother ['b', 'o', 'r', 'd', 'e', 'r'] (by decide) (by decide)]

theorem matchAttrStrip_hit {nm v : List Char} (hnm : nm ∈ attrNames)
    (hv : goodValue v = true) (T : List Char) :
    matchAttrStrip (' ' :: (renderAttrOne (nm, v) ++ T)) =
      some (1 + nm.length + 2 + v.length + 1, []) := by
  have hk := attrNames_sub nm hnm
  have hform : renderAttrOne (nm, v) ++ T = nm ++ '=' :: '"' :: (v ++ '"' :: T) := by
    simp [renderAttrOne]
  have hws := takeWhile_space_key hk ('=' :: '"' :: (v ++ '"' :: T))
  have hfind := attrNames_find?_self hnm (v ++ '"' :: T)
  have hr2 : (nm ++ '=' :: '"' :: (v ++ '"' :: T)).drop (nm.length + 2) =
      v ++ '"' :: T := by
    have h1 : nm ++ '=' :: '"' :: (v ++ '"' :: T) =
        (nm ++ ['=', '"']) ++ (v ++ '"' :: T) := by simp
    have h2 : nm.length + 2 = (nm ++ ['=', '"']).length := by simp
    rw [h1, h2, List.drop_left]
  have htake : (v ++ '"' :: T).takeWhile (· ≠ '"') = v :=
    takeWhile_value v T fun x hx => (goodValue_props hv x hx).1
  have hdropv : (v ++ '"' :: T).drop v.length = '"' :: T := List.drop_left v _
  rw [hform]
  simp only [matchAttrStrip, hws, hfind, hr2, htake, hdropv, List.length_cons,
    List.length_nil, List.drop_succ_cons, List.drop_zero]
  simp

theorem matchAttrStrip_miss {k v T : List Char} (hk : k ∈ imgAttrKeys)
    (hna : k ∉ attrNames) :
    matchAttrStrip (' ' :: (renderAttrOne (k, v) ++ T)) = none := by
  have hform : renderAttrOne (k, v) ++ T = k ++ '=' :: '"' :: (v ++ '"' :: T) := by
    simp [renderAttrOne]
  have hws := takeWhile_space_key hk ('=' :: '"' :: (v ++ '"' :: T))
  have hfind : (attrNames.find? fun a =>
      (a ++ "=\"".data).isPrefixOf (k ++ '=' :: '"' :: (v ++ '"' :: T))) = none := by
    rw [List.find?_eq_none]
    intro x hx
    have h2 := isPrefixOf_false_of_incompatible
      (attrName_incompat x hx k hk fun he => hna (he ▸ hx))
      ('=' :: '"' :: (v ++ '"' :: T))
    simp [h2]
  rw [hform]
  simp only [matchAttrStrip, hws, hfind, List.length_cons, List.length_nil,
    List.drop_succ_cons, List.drop_zero]
  simp

theorem contains_attrNames {k : List Char} :
    attrNames.contains k = true ↔ k ∈ attrNames := by
  simp [List.contains]

theorem scanRw_strip_tail :
    ∀ attrs, GoodAttrs attrs →
      scanRw matchAttrStrip (renderTail attrs) =
        renderTail (attrs.filter fun p => !(attrNames.contains p.1))
  | [], _ => rfl
  | (k, v) :: rest, h => by
    have hk := (h (k, v) (List.mem_cons_self _ _)).1
    have hv := (h (k, v) (List.mem_cons_self _ _)).2
    have htail : GoodAttrs rest := fun p hp => h p (List.mem_cons_of_mem _ hp)
    rw [renderTail]
    by_cases hc : attrNames.contains k = true
    · have hmem : k ∈ attrNames := contains_attrNames.mp hc
      rw [scanRw_cons_some (matchAttrStrip_hit hmem hv (renderTail rest)) (by omega)]
      have hd : (' ' :: (renderAttrOne (k, v) ++ renderTail rest)).drop
          (1 + k.length + 2 + v.length + 1) = renderTail rest := by
        have h1 : ' ' :: (renderAttrOne (k, v) ++ renderTail rest) =
            (' ' :: renderAttrOne (k, v)) ++ renderTail rest := rfl
        have h2 : 1 + k.length + 2 + v.length + 1 =
            (' ' :: renderAttrOne (k, v)).length := by
          simp [renderAttrOne]
          omega
        rw [h1, h2, List.drop_left]
      rw [hd, scanRw_strip_tail rest htail]
      simp [List.filter_cons, hmem]
    · have hmem : k ∉ attrNames := fun hm => hc (contains_attrNames.mpr hm)
      rw [scanRw_cons_none (matchAttrStrip_miss hk hmem)]
      rw [scanRw_strip_block hk hv (renderTail rest)]
      rw [scanRw_strip_tail rest htail]
      have hcf : attrNames.contains k = false := by
        cases hq : attrNames.contains k
        · rfl
        · exact absurd hq hc
      simp [List.filter_cons, hmem, renderTail]

theorem scanRw_strip_attrs (attrs : List (List Char × List Char))
    (h : GoodAttrs attrs) :
    scanRw matchAttrStrip (renderAttrs attrs) =
      renderAttrs (stripLaterPresentational attrs) := by
  match attrs with
  | [] => rfl
  | (k, v) :: rest =>
    have hk := (h (k, v) (List.mem_cons_self _ _)).1
    have hv := (h (k, v) (List.mem_cons_self _ _)).2
    have htail : GoodAttrs rest := fun p hp => h p (List.mem_cons_of_mem _ hp)
    rw [renderAttrs, scanRw_strip_block hk hv (renderTail rest),
      scanRw_strip_tail rest htail]
    rfl

theorem renderTail_ends (a : List Char × List Char) :
    ∀ rest, ∃ s, renderAttrOne a ++ renderTail rest = s ++ ['"']
  | [] => ⟨a.1 ++ '=' :: '"' :: a.2, by simp [renderAttrOne, renderTail]⟩
  | b :: rest => by
    obtain ⟨s, hs⟩ := renderTail_ends b rest
    exact ⟨renderAttrOne a ++ ' ' :: s, by simp [renderTail, hs]⟩

theorem keys_strip {attrs : List (List Char × List Char)}
    (h : ∀ p ∈ attrs, p.1 ∈ imgAttrKeys) :
    ∀ p ∈ stripLaterPresentational attrs, p.1 ∈ imgAttrKeys := by
  match attrs with
  | [] => exact h
  | a :: rest =>
    intro p hp
    rw [stripLaterPresentational] at hp
    rcases List.mem_cons.mp hp with rfl | hp2
    · exact h _ (List.mem_cons_self _ _)
    · exact h _ (List.mem_cons_of_mem _ (List.mem_of_mem_filter hp2))

theorem goodAttrs_strip {attrs : List (List Char × List Char)}
    (h : GoodAttrs attrs) : GoodAttrs (stripLaterPresentational attrs) := by
  match attrs with
  | [] => exact h
  | a :: rest =>
    intro p hp
    rw [stripLaterPresentational] at hp
    rcases List.mem_cons.mp hp with rfl | hp2
    · exact h _ (List.mem_cons_self _ _)
    · exact h _ (List.mem_cons_of_mem _ (List.mem_of_mem_filter hp2))

theorem keys_subst {newSrc : List Char} {attrs : List (List Char × List Char)}
    (h : ∀ p ∈ attrs, p.1 ∈ imgAttrKeys) :
    ∀ p ∈ substSrc newSrc attrs, p.1 ∈ imgAttrKeys := by
  intro p hp
  simp only [substSrc] at hp
  obtain ⟨q, hq, hpq⟩ := List.mem_map.mp hp
  have hkeep : p.1 = q.1 := by
    rw [← hpq]
    by_cases h1 : q.1 = "src".data
    · simp [h1]
    · simp [h1]
  rw [hkeep]
  exact h q hq

theorem pyStrip_render :
    ∀ attrs : List (List Char × List Char),
      (∀ p ∈ attrs, p.1 ∈ imgAttrKeys) →
      pyStrip (renderAttrs attrs) = renderAttrs attrs
  | [], _ => rfl
  | a :: rest, h => by
    have hk := h a (List.mem_cons_self _ _)
    obtain ⟨hne, hns⟩ := imgKey_facts a.1 hk
    obtain ⟨c, kt, hshape⟩ := List.exists_cons_of_ne_nil hne
    obtain ⟨s, hs⟩ := renderTail_ends a rest
    have hcons : renderAttrs (a :: rest) =
        c :: (kt ++ '=' :: '"' :: (a.2 ++ ['"']) ++ renderTail rest) := by
      simp [renderAttrs, renderAttrOne, hshape]
    have hcns : isPySpace c = false := hns c (by rw [hshape]; simp)
    have hsA : renderAttrs (a :: rest) = s ++ ['"'] := by
      rw [renderAttrs]
      exact hs
    have h1 : (renderAttrs (a :: rest)).dropWhile isPySpace =
        renderAttrs (a :: rest) := by
      rw [hcons, List.dropWhile_cons]
      simp [hcns]
    have h2 : (renderAttrs (a :: rest)).reverse = '"' :: s.reverse := by
      rw [hsA]
      simp
    rw [pyStrip, h1, h2, List.dropWhile_cons]
    simp [show isPySpace '"' = false by decide, hsA]

/-- C4 (corrected): on a well-formed `<img>` attribute text, `rewrite_img`
resolves the basename of the percent-decoded first `src` value; if there is
no `src` attribute, or the basename is not a key of the rename map, the
whole match is returned untouched; otherwise the `src` value is replaced by
`img/<slug>/<renamed-file>` and the presentational `width`, `height`,
`border` and `name` attributes are stripped — except an attribute standing
first in the tag, which the strip pattern's mandatory leading whitespace
never reaches. -/
theorem C4_image_rewrite (imap : List (List Char × List Char))
    (slug g0 : List Char) (attrs : List (List Char × List Char))
    (hgood : GoodAttrs attrs) :
    (firstSrcVal attrs = none →
      rewrite_img imap slug g0 (renderAttrs attrs) = g0) ∧
    (∀ v, firstSrcVal attrs = some v →
      dictLookup imap (basename (pctDecode v)) = none →
      rewrite_img imap slug g0 (renderAttrs attrs) = g0) ∧
    (∀ v newName, firstSrcVal attrs = some v →
      dictLookup imap (basename (pctDecode v)) = some newName →
      rewrite_img imap slug g0 (renderAttrs attrs) =
        "<img ".data ++
          renderAttrs (substSrc ("img/".data ++ slug ++ '/' :: newName)
            (stripLaterPresentational attrs)) ++ ['>']) := by
  have hsv := searchSrcVal_attrs attrs hgood
  refine ⟨?_, ?_, ?_⟩
  · intro hnone
    simp only [rewrite_img, hsv, hnone]
  · intro v hv hlook
    simp only [rewrite_img, hsv, hv, hlook]
  · intro v newName hv hlook
    simp only [rewrite_img, hsv, hv, hlook]
    rw [scanRw_strip_attrs attrs hgood]
    rw [scanRw_subst_attrs ("img/".data ++ slug ++ '/' :: newName)
      (stripLaterPresentational attrs) (goodAttrs_strip hgood)]
    rw [pyStrip_render _ (keys_subst (keys_strip fun p hp => (hgood p hp).1))]

/-- C4 witness: the amended theorem evaluated at the counterexample tag,
whose `src` attribute comes first and `width` second: the `width` is
stripped, the `src` rewritten. -/
theorem C4_image_rewrite_witness :
    rewrite_img (imgMapOf ["picture1.jpg".data]) "letter".data
        "<img src=\"picture1.jpg\" width=\"5\">".data
        (renderAttrs [("src".data, "picture1.jpg".data), ("width".data, "5".data)]) =
      "<img ".data ++
        renderAttrs (substSrc ("img/".data ++ "letter".data ++ '/' :: "img001.jpg".data)
          (stripLaterPresentational
            [("src".data, "picture1.jpg".data), ("width".data, "5".data)])) ++ ['>'] :=
  (C4_image_rewrite (imgMapOf ["picture1.jpg".data]) "letter".data
      "<img src=\"picture1.jpg\" width=\"5\">".data
      [("src".data, "picture1.jpg".data), ("width".data, "5".data)]
      (by unfold GoodAttrs; decide)).2.2 "picture1.jpg".data "img001.jpg".data (by decide) (by decide)

end AddImages
